import Mathlib

/-!
Shallow embedding of the HTTP/2 client connection pool
(`client_conn_pool.go` of hugjobk/http2).

Go maps are modelled as association lists with first-match lookup;
`minsert` overwrites (it removes every binding of the key first) and
`mdelete` removes every binding, so the association lists behave exactly
like Go maps.  Connections and raw network connections are opaque
identities, modelled as natural numbers.  Pointer mutation of a group
that is registered in the pool's `groups` map is modelled by writing the
updated group back under its address (`setGroup`).  Go `int` values that
can be compared against negative quantities (`maxConnsPerHost`,
`len(conns)-1`) are modelled in `Int`.  The `removeClientConn` paths on
which Go panics (index out of range) return `none`.
-/

namespace Http2Pool

/-- Association-list lookup, first binding wins (models Go map read). -/
def mlookup {K V : Type} [DecidableEq K] (m : List (K × V)) (k : K) : Option V :=
  (m.find? (fun e => e.1 = k)).map (·.2)

/-- Remove every binding of `k` (models Go `delete`). -/
def mdelete {K V : Type} [DecidableEq K] (m : List (K × V)) (k : K) : List (K × V) :=
  m.filter (fun e => ¬ e.1 = k)

/-- Overwriting insert (models Go map assignment). -/
def minsert {K V : Type} [DecidableEq K] (m : List (K × V)) (k : K) (v : V) : List (K × V) :=
  (k, v) :: mdelete m k

/-- Opaque identity of an `http2.ClientConn`. -/
abbrev Conn := Nat

/-- Opaque identity of a raw `net.Conn`. -/
abbrev RawConn := Nat

/-- Errors surfaced by the pool, mirroring the error values built in the
source: dial failures, the ALPN negotiation failure and the
"no available connection to addr" exhaustion error. -/
inductive PoolError where
  | dialError : PoolError
  | noAvailableConn : String → PoolError
  deriving DecidableEq

/-- State of `clientConnGroup`: per-destination state (`addr`, round-robin cursor
`connIdx`, live connections `conns`, index map `keys`, single-flight
`dialing` flag). -/
structure Group where
  addr : String
  connIdx : Nat
  conns : List Conn
  keys : List (Conn × Nat)
  dialing : Bool
  deriving DecidableEq

/-- State of `clientConnPool`: destination-keyed group registry `groups`,
connection-ownership map `keys`, and the configured per-host cap. -/
structure Pool where
  groups : List (String × Group)
  keys : List (Conn × String)
  maxConnsPerHost : Int
  deriving DecidableEq

/-- The fresh group built by `GetClientConn` when no group exists. -/
def newGroup (addr : String) : Group :=
  { addr := addr, connIdx := 0, conns := [], keys := [], dialing := false }

/-- The group-local lines of `clientConnGroup.addClientConn`: record
the connection's index and append it to `conns`. -/
def addConnG (g : Group) (conn : Conn) : Group :=
  { g with keys := minsert g.keys conn g.conns.length,
           conns := g.conns ++ [conn] }

/-- Model of `clientConnGroup.addClientConn`: record the connection index,
append it to `conns`, and record its owner in the pool `keys` map. -/
def addClientConn (p : Pool) (g : Group) (conn : Conn) : Pool × Group :=
  ({ p with keys := minsert p.keys conn g.addr }, addConnG g conn)

/-- Model of `clientConnGroup.removeClientConn`.  The last-element branch drops
the connection from `conns` but leaves its `keys` entry in place (as the
source does).  The swap branch overwrites slot `idx` with the last
connection, truncates, updates the moved connection's index and deletes
the retired connection's entry.  `none` models the Go panics (reading
`conns[len-1]` of an empty slice, or writing `conns[idx]` out of
range), which cannot happen at this function's call site. -/
def removeClientConn (g : Group) (conn : Conn) : Option Group :=
  match mlookup g.keys conn with
  | none => some g
  | some idx =>
    if (idx : Int) = (g.conns.length : Int) - 1 then
      some { g with conns := g.conns.dropLast }
    else
      match g.conns.getLast? with
      | none => none
      | some lastConn =>
        if idx < g.conns.length then
          some { g with conns := (g.conns.set idx lastConn).dropLast,
                        keys := mdelete (minsert g.keys lastConn idx) conn }
        else none

/-- Write the (possibly mutated) group back under its address; this
models Go's in-place mutation of the group object the registry points
to. -/
def setGroup (p : Pool) (addr : String) (g : Group) : Pool :=
  { p with groups := minsert p.groups addr g }

/-- Model of `clientConnPool.MarkDead`: resolve the owning destination, drop the
ownership entry, remove the connection from its group, and delete the
group when it becomes empty.  `none` propagates the (unreachable)
panic of `removeClientConn`. -/
def markDead (p : Pool) (conn : Conn) : Option Pool :=
  match mlookup p.keys conn with
  | none => some p
  | some addr =>
    let keys1 := mdelete p.keys conn
    match mlookup p.groups addr with
    | none => some { p with keys := keys1 }
    | some g =>
      match removeClientConn g conn with
      | none => none
      | some g1 =>
        if g1.conns.length = 0 then
          some { p with keys := keys1, groups := mdelete p.groups addr }
        else
          some { p with keys := keys1, groups := minsert p.groups addr g1 }

/-- The selection loop of `clientConnGroup.getClientConn`: up to `fuel`
rotation steps, each advancing the cursor and testing the connection at
the new cursor position; returns the first connection that can take a
new request, together with the final cursor value. -/
def selectLoop (canTake : Conn → Bool) (conns : List Conn) :
    Nat → Nat → Option Conn × Nat
  | idx, 0 => (none, idx)
  | idx, fuel + 1 =>
    let idx1 := idx + 1
    let conn := conns.getD (idx1 % conns.length) 0
    if canTake conn then (some conn, idx1)
    else selectLoop canTake conns idx1 fuel

instance {α β : Type} [DecidableEq α] [DecidableEq β] : DecidableEq (Except α β) :=
  fun a b =>
    match a, b with
    | Except.error x, Except.error y =>
      if h : x = y then isTrue (by rw [h])
      else isFalse (by intro hh; cases hh; exact h rfl)
    | Except.error _, Except.ok _ => isFalse (by intro h; cases h)
    | Except.ok _, Except.error _ => isFalse (by intro h; cases h)
    | Except.ok x, Except.ok y =>
      if h : x = y then isTrue (by rw [h])
      else isFalse (by intro hh; cases hh; exact h rfl)

/-- Result of a group-level `getClientConn` call: the request outcome,
the pool and group after the call, whether the synchronous dial path
ran, and whether a background dial goroutine was triggered. -/
structure GetRes where
  res : Except PoolError Conn
  p : Pool
  g : Group
  syncDialed : Bool
  bgTriggered : Bool
  deriving DecidableEq

/-- Model of `clientConnGroup.getClientConn`.  Here `canTake` is the engine
`CanTakeNewRequest` oracle and `dial` the outcome of `dialClientConn`
for this call (`none` = dial error).  With zero connections it dials
synchronously and registers the result; otherwise it (possibly)
triggers a background dial and scans `len(conns)` round-robin
candidates. -/
def getClientConnG (canTake : Conn → Bool) (dial : Option Conn)
    (p : Pool) (g : Group) : GetRes :=
  if g.conns.length = 0 then
    match dial with
    | none => ⟨Except.error PoolError.dialError, p, g, true, false⟩
    | some conn =>
      let pg := addClientConn p g conn
      ⟨Except.ok conn, pg.1, pg.2, true, false⟩
  else
    let bg := decide (p.maxConnsPerHost ≤ 0 ∨ (g.conns.length : Int) < p.maxConnsPerHost)
    match selectLoop canTake g.conns g.connIdx g.conns.length with
    | (some conn, idx) =>
      ⟨Except.ok conn, p, { g with connIdx := idx }, false, bg⟩
    | (none, idx) =>
      ⟨Except.error (PoolError.noAvailableConn g.addr), p,
        { g with connIdx := idx }, false, bg⟩

/-- Model of `clientConnPool.GetClientConn`: with keep-alives disabled, dial a
one-shot connection and register nothing; otherwise look up or lazily
create the destination's group and delegate to the group. -/
def GetClientConn (canTake : Conn → Bool) (dial : Option Conn)
    (disableKeepAlives : Bool) (p : Pool) (addr : String) :
    Except PoolError Conn × Pool :=
  if disableKeepAlives then
    match dial with
    | none => (Except.error PoolError.dialError, p)
    | some c => (Except.ok c, p)
  else
    match mlookup p.groups addr with
    | some g =>
      let r := getClientConnG canTake dial p g
      (r.res, setGroup r.p addr r.g)
    | none =>
      let g := newGroup addr
      let p1 := setGroup p addr g
      let r := getClientConnG canTake dial p1 g
      (r.res, setGroup r.p addr r.g)

/-- Model of `clientConnGroup.dialClientConn` (the background dial), run as one
atomic operation: compare-and-swap on the `dialing` flag (the flag is
set and reset within the operation, so the net state keeps it), the cap
re-check `len(g.conns) >= g.p.maxConnsPerHost`, the dial, and on
success the registration of the new connection. -/
def dialClientConnBG (dial : Option Conn) (p : Pool) (addr : String) : Pool :=
  match mlookup p.groups addr with
  | none => p
  | some g =>
    if g.dialing then p
    else if (g.conns.length : Int) ≥ p.maxConnsPerHost then p
    else
      match dial with
      | none => p
      | some conn =>
        let pg := addClientConn p g conn
        setGroup pg.1 addr pg.2

/-- Constant `NextProtoTLS`. -/
def NextProtoTLS : String := "h2"

/-- Environment of the free function `dialClientConn` (the connection
factory): whether `SplitHostPort` succeeds, whether a custom `DialTLS`
function is configured and its outcome, the internal TLS dial's outcome
(raw connection plus negotiated ALPN protocol), and the protocol
engine's `NewClientConn`. -/
structure FactoryEnv where
  splitOk : Bool
  hasDialTLS : Bool
  customResult : Option RawConn
  tlsResult : Option (RawConn × String)
  engine : RawConn → Option Conn

/-- Errors of the connection factory, mirroring the source's returns. -/
inductive DialErr where
  | splitHostPort : DialErr
  | customDial : DialErr
  | tlsDial : DialErr
  | alpn : String → DialErr
  | engine : DialErr
  deriving DecidableEq

/-- The free function `dialClientConn`: on the custom-dial path the
configured function is used verbatim and its result goes straight to
the engine; on the internal path the negotiated protocol is checked
against `NextProtoTLS` before the engine is invoked. -/
def dialClientConnF (env : FactoryEnv) : Except DialErr Conn :=
  if env.splitOk = false then Except.error DialErr.splitHostPort
  else if env.hasDialTLS then
    match env.customResult with
    | none => Except.error DialErr.customDial
    | some raw =>
      match env.engine raw with
      | none => Except.error DialErr.engine
      | some c => Except.ok c
  else
    match env.tlsResult with
    | none => Except.error DialErr.tlsDial
    | some (raw, proto) =>
      if proto = NextProtoTLS then
        match env.engine raw with
        | none => Except.error DialErr.engine
        | some c => Except.ok c
      else Except.error (DialErr.alpn proto)

/-! ### Fine-grained model of the background dial (for the single-flight
claim).  Each invocation of `clientConnGroup.dialClientConn` on one group
is a process whose program counter walks through the atomic actions of
the function: the compare-and-swap on `dialing`, the cap re-check, the
dial (with a predetermined outcome), the registration, and the deferred
flag reset.  Processes of one group interleave arbitrarily. -/

/-- Program counter of one background-dial invocation. -/
inductive DPC where
  | start : DPC
  | capCheck : DPC
  | dialStep : DPC
  | adding : DPC
  | resetting : DPC
  | done : DPC
  | lost : DPC
  deriving DecidableEq

/-- One invocation: its program counter and the predetermined outcome of
its dial attempt. -/
abbrev DProc := DPC × Bool

/-- State of one group under concurrent background-dial invocations:
the `dialing` flag, the connection count, and the invocations. -/
structure DialSys where
  flag : Bool
  conns : Nat
  procs : List DProc

/-- Interleaved step relation of `clientConnGroup.dialClientConn`:
at each step one invocation executes its next atomic action. -/
inductive DStep (cap : Int) : DialSys → DialSys → Prop where
  | casLose (n : Nat) (l r : List DProc) (d : Bool) :
      DStep cap ⟨true, n, l ++ (DPC.start, d) :: r⟩
                ⟨true, n, l ++ (DPC.lost, d) :: r⟩
  | casWin (n : Nat) (l r : List DProc) (d : Bool) :
      DStep cap ⟨false, n, l ++ (DPC.start, d) :: r⟩
                ⟨true, n, l ++ (DPC.capCheck, d) :: r⟩
  | capAbort (f : Bool) (n : Nat) (l r : List DProc) (d : Bool)
      (h : (n : Int) ≥ cap) :
      DStep cap ⟨f, n, l ++ (DPC.capCheck, d) :: r⟩
                ⟨f, n, l ++ (DPC.resetting, d) :: r⟩
  | capPass (f : Bool) (n : Nat) (l r : List DProc) (d : Bool)
      (h : (n : Int) < cap) :
      DStep cap ⟨f, n, l ++ (DPC.capCheck, d) :: r⟩
                ⟨f, n, l ++ (DPC.dialStep, d) :: r⟩
  | dialOk (f : Bool) (n : Nat) (l r : List DProc) :
      DStep cap ⟨f, n, l ++ (DPC.dialStep, true) :: r⟩
                ⟨f, n, l ++ (DPC.adding, true) :: r⟩
  | dialFail (f : Bool) (n : Nat) (l r : List DProc) :
      DStep cap ⟨f, n, l ++ (DPC.dialStep, false) :: r⟩
                ⟨f, n, l ++ (DPC.resetting, false) :: r⟩
  | addConn (f : Bool) (n : Nat) (l r : List DProc) (d : Bool) :
      DStep cap ⟨f, n, l ++ (DPC.adding, d) :: r⟩
                ⟨f, n + 1, l ++ (DPC.resetting, d) :: r⟩
  | reset (f : Bool) (n : Nat) (l r : List DProc) (d : Bool) :
      DStep cap ⟨f, n, l ++ (DPC.resetting, d) :: r⟩
                ⟨false, n, l ++ (DPC.done, d) :: r⟩

/-- An invocation is "inside" when it has won the compare-and-swap and
has not yet reset the flag. -/
def insideCAS (pc : DPC) : Bool :=
  match pc with
  | DPC.capCheck => true
  | DPC.dialStep => true
  | DPC.adding => true
  | DPC.resetting => true
  | _ => false

/-- Number of invocations currently past the compare-and-swap. -/
def countInside (ps : List DProc) : Nat :=
  ps.countP (fun pr => insideCAS pr.1)

/-! ### Operation sequences on a single group (for the index-map claim). -/

/-- One group-local operation. -/
inductive GOp where
  | add : Conn → GOp
  | remove : Conn → GOp
  deriving DecidableEq

/-- Run a sequence of group operations; `none` once a removal panics. -/
def applyOps : Group → List GOp → Option Group
  | g, [] => some g
  | g, GOp.add c :: ops => applyOps (addConnG g c) ops
  | g, GOp.remove c :: ops =>
    match removeClientConn g c with
    | none => none
    | some g1 => applyOps g1 ops

/-- Validity of an operation sequence, as at the operations' call
sites: every added connection is new to the group, and every removal's
index-map entry (when present) is in range, so no removal panics. -/
inductive ValidOps : Group → List GOp → Prop where
  | nil (g : Group) : ValidOps g []
  | add (g : Group) (c : Conn) (ops : List GOp) (hc : c ∉ g.conns)
      (h : ValidOps (addConnG g c) ops) : ValidOps g (GOp.add c :: ops)
  | remove (g : Group) (c : Conn) (g1 : Group) (ops : List GOp)
      (hr : removeClientConn g c = some g1)
      (h : ValidOps g1 ops) : ValidOps g (GOp.remove c :: ops)

/-! ### Invariants. -/

/-- Per-host cap invariant: every registered group holds at most
`maxConnsPerHost` connections (stated over the registry's entries). -/
def BoundedP (p : Pool) : Prop :=
  ∀ e ∈ p.groups, (e.2.conns.length : Int) ≤ p.maxConnsPerHost

/-- Group well-formedness: connections are pairwise distinct, the index
map binds each key once, and every live connection's entry records its
current position.  (Entries for retired connections may remain: the
last-element branch of `removeClientConn` keeps them.) -/
def groupInv (g : Group) : Prop :=
  g.conns.Nodup ∧ (g.keys.map Prod.fst).Nodup ∧
    ∀ i < g.conns.length, mlookup g.keys (g.conns.getD i 0) = some i

/-- Pool well-formedness: every ownership entry points to a registered
group containing the connection; every registered group carries its own
address, is well formed, and all its connections are owned by it in the
ownership map; both pool maps bind each key once. -/
def poolInv (p : Pool) : Prop :=
  (∀ e ∈ p.keys, ∃ g, mlookup p.groups e.2 = some g ∧ e.1 ∈ g.conns) ∧
  (∀ e ∈ p.groups, e.2.addr = e.1 ∧ groupInv e.2 ∧
      ∀ c ∈ e.2.conns, mlookup p.keys c = some e.1) ∧
  (p.keys.map Prod.fst).Nodup ∧ (p.groups.map Prod.fst).Nodup

/-- Decidable phrasing of `poolInv`, with the ownership clause stated
over registry entries instead of a lookup existential; equivalent by
the registry's key uniqueness. -/
def poolInvD (p : Pool) : Prop :=
  (∀ e ∈ p.keys, ∃ eg ∈ p.groups, eg.1 = e.2 ∧ e.1 ∈ eg.2.conns) ∧
  (∀ e ∈ p.groups, e.2.addr = e.1 ∧ groupInv e.2 ∧
      ∀ c ∈ e.2.conns, mlookup p.keys c = some e.1) ∧
  (p.keys.map Prod.fst).Nodup ∧ (p.groups.map Prod.fst).Nodup

instance (p : Pool) : Decidable (BoundedP p) := by
  unfold BoundedP
  exact inferInstance

instance (g : Group) : Decidable (groupInv g) := by
  unfold groupInv
  exact inferInstance

instance (p : Pool) : Decidable (poolInvD p) := by
  unfold poolInvD
  exact inferInstance

/-- The bidirectional correspondence of the specification: a connection
has an ownership entry iff it lies in some registered group's
connection list (stated over entries, hence decidable). -/
def corr (p : Pool) : Prop :=
  (∀ e ∈ p.keys, ∃ eg ∈ p.groups, e.1 ∈ eg.2.conns) ∧
  (∀ eg ∈ p.groups, ∀ c ∈ eg.2.conns, ∃ e ∈ p.keys, e.1 = c)

/-- Runs `M` sequential group-level `getClientConn` calls (with the dial
oracle fixed to `dial`); returns the final pool and group and the list
of per-call results in call order. -/
def iterCalls (canTake : Conn → Bool) (dial : Option Conn) (p : Pool) (g : Group) :
    Nat → Pool × Group × List (Except PoolError Conn)
  | 0 => (p, g, [])
  | m + 1 =>
    let r := getClientConnG canTake dial p g
    let rest := iterCalls canTake dial r.p r.g m
    (rest.1, rest.2.1, r.res :: rest.2.2)

/-! ### Small concrete states used to exercise the theorems. -/

/-- A one-connection group for destination `"a"`. -/
def sampleGroup : Group := ⟨"a", 0, [5], [(5, 0)], false⟩

/-- A two-connection group for destination `"a"`. -/
def sampleGroup2 : Group := ⟨"a", 3, [1, 2], [(1, 0), (2, 1)], false⟩

/-- A pool holding `sampleGroup` with cap 1. -/
def samplePool : Pool := ⟨[("a", sampleGroup)], [(5, "a")], 1⟩

/-- The same pool with no cap configured (`maxConnsPerHost = 0`). -/
def samplePoolNoCap : Pool := ⟨[("a", sampleGroup)], [(5, "a")], 0⟩

/-- A pool holding `sampleGroup2` with cap 5. -/
def samplePool2 : Pool := ⟨[("a", sampleGroup2)], [(1, "a"), (2, "a")], 5⟩

/-! ### Lemmas on the association-list map operations. -/

theorem mlookup_cons {K V : Type} [DecidableEq K] (e : K × V) (m : List (K × V)) (k : K) :
    mlookup (e :: m) k = if e.1 = k then some e.2 else mlookup m k := by
  by_cases h : e.1 = k <;> simp [mlookup, List.find?_cons, h]

theorem mdelete_cons {K V : Type} [DecidableEq K] (e : K × V) (m : List (K × V)) (k : K) :
    mdelete (e :: m) k = if e.1 = k then mdelete m k else e :: mdelete m k := by
  by_cases h : e.1 = k <;> simp [mdelete, List.filter_cons, h]

theorem mlookup_mdelete_self {K V : Type} [DecidableEq K] (m : List (K × V)) (k : K) :
    mlookup (mdelete m k) k = none := by
  induction m with
  | nil => rfl
  | cons e m ih =>
    rw [mdelete_cons]
    by_cases h : e.1 = k
    · simpa [h] using ih
    · rw [if_neg h, mlookup_cons, if_neg h]; exact ih

theorem mlookup_mdelete_ne {K V : Type} [DecidableEq K] (m : List (K × V)) {k k' : K}
    (h : k' ≠ k) : mlookup (mdelete m k) k' = mlookup m k' := by
  induction m with
  | nil => rfl
  | cons e m ih =>
    rw [mdelete_cons, mlookup_cons]
    by_cases he : e.1 = k
    · rw [if_pos he, if_neg (by rw [he]; exact fun hh => h hh.symm), ih]
    · rw [if_neg he, mlookup_cons, ih]

theorem mlookup_minsert_self {K V : Type} [DecidableEq K] (m : List (K × V)) (k : K) (v : V) :
    mlookup (minsert m k v) k = some v := by
  simp [minsert, mlookup_cons]

theorem mlookup_minsert_ne {K V : Type} [DecidableEq K] (m : List (K × V)) {k k' : K} (v : V)
    (h : k' ≠ k) : mlookup (minsert m k v) k' = mlookup m k' := by
  rw [minsert, mlookup_cons, if_neg (fun hh => h hh.symm), mlookup_mdelete_ne m h]

theorem mem_mdelete_iff {K V : Type} [DecidableEq K] {e : K × V} {m : List (K × V)} {k : K} :
    e ∈ mdelete m k ↔ e ∈ m ∧ ¬ e.1 = k := by
  simp [mdelete, List.mem_filter]

theorem mem_minsert_iff {K V : Type} [DecidableEq K] {e : K × V} {m : List (K × V)}
    {k : K} {v : V} :
    e ∈ minsert m k v ↔ e = (k, v) ∨ (e ∈ m ∧ ¬ e.1 = k) := by
  simp [minsert, mem_mdelete_iff]

theorem mlookup_some_mem {K V : Type} [DecidableEq K] {m : List (K × V)} {k : K} {v : V}
    (h : mlookup m k = some v) : (k, v) ∈ m := by
  unfold mlookup at h
  obtain ⟨e, he, hev⟩ : ∃ e, m.find? (fun e => e.1 = k) = some e ∧ e.2 = v := by
    cases hf : m.find? (fun e => e.1 = k) with
    | none => rw [hf] at h; cases h
    | some e => rw [hf] at h; exact ⟨e, rfl, by simpa using h⟩
  have hmem := List.mem_of_find?_eq_some he
  have hpred := List.find?_some he
  have hk : e.1 = k := by simpa using hpred
  have : e = (k, v) := by cases e; simp_all
  rwa [this] at hmem

theorem mlookup_eq_none_iff {K V : Type} [DecidableEq K] {m : List (K × V)} {k : K} :
    mlookup m k = none ↔ ∀ e ∈ m, ¬ e.1 = k := by
  simp [mlookup, List.find?_eq_none]

theorem mem_mlookup_of_nodup {K V : Type} [DecidableEq K] {m : List (K × V)} {k : K} {v : V}
    (hnd : (m.map Prod.fst).Nodup) (hmem : (k, v) ∈ m) : mlookup m k = some v := by
  induction m with
  | nil => cases hmem
  | cons e m ih =>
    rw [List.map_cons, List.nodup_cons] at hnd
    rw [mlookup_cons]
    rcases List.mem_cons.mp hmem with hh | hh
    · rw [← hh]; simp
    · have hne : ¬ e.1 = k := by
        intro hk
        exact hnd.1 (hk ▸ (List.mem_map.mpr ⟨(k, v), hh, rfl⟩))
      rw [if_neg hne]; exact ih hnd.2 hh

theorem nodup_fst_mdelete {K V : Type} [DecidableEq K] {m : List (K × V)} (k : K)
    (h : (m.map Prod.fst).Nodup) : ((mdelete m k).map Prod.fst).Nodup :=
  List.Nodup.sublist (List.Sublist.map Prod.fst (List.filter_sublist m)) h

theorem nodup_fst_minsert {K V : Type} [DecidableEq K] {m : List (K × V)} (k : K) (v : V)
    (h : (m.map Prod.fst).Nodup) : ((minsert m k v).map Prod.fst).Nodup := by
  rw [minsert, List.map_cons, List.nodup_cons]
  refine ⟨?_, nodup_fst_mdelete k h⟩
  intro hk
  obtain ⟨e, he, hek⟩ := List.mem_map.mp hk
  exact (mem_mdelete_iff.mp he).2 hek

/-! ### List access helpers. -/

theorem getD_getElem? {l : List Conn} {i : Nat} (hi : i < l.length) :
    l[i]? = some (l.getD i 0) := by
  rw [List.getD_eq_getElem?_getD, List.getElem?_eq_getElem hi]
  rfl

theorem getLast?_eq_getD {l : List Conn} (h : 0 < l.length) :
    l.getLast? = some (l.getD (l.length - 1) 0) := by
  rw [List.getLast?_eq_getElem?]
  exact getD_getElem? (by omega)

theorem getElem?_dropLast {l : List Conn} {i : Nat} (hi : i < l.length - 1) :
    l.dropLast[i]? = l[i]? := by
  rw [List.dropLast_eq_take, List.getElem?_take, if_pos hi]

theorem getElem?_setDropLast {l : List Conn} {idx i : Nat} (a : Conn) (hi : i < l.length - 1) :
    ((l.set idx a).dropLast)[i]? = if idx = i then some a else l[i]? := by
  have h1 : ((l.set idx a).dropLast)[i]? = (l.set idx a)[i]? := by
    have : i < (l.set idx a).length - 1 := by rw [List.length_set]; omega
    exact getElem?_dropLast this
  rw [h1]
  by_cases h : idx = i
  · subst h
    rw [if_pos rfl]
    exact List.getElem?_set_eq_of_lt a (by omega)
  · rw [if_neg h]
    exact List.getElem?_set_ne h

/-! ### Characterization of `removeClientConn`. -/

/-- Case analysis on a non-panicking run of `removeClientConn`:
either the connection had no index-map entry and the group is
untouched, or the entry pointed at the final slot (truncate, keys
untouched), or the entry was interior (swap with the last connection,
truncate, reindex the moved one, drop the retired entry). -/
theorem removeClientConn_some_inv {g g1 : Group} {conn : Conn}
    (h : removeClientConn g conn = some g1) :
    (mlookup g.keys conn = none ∧ g1 = g) ∨
    (∃ idx, mlookup g.keys conn = some idx ∧ 0 < g.conns.length ∧
      idx = g.conns.length - 1 ∧ g1 = { g with conns := g.conns.dropLast }) ∨
    (∃ idx, mlookup g.keys conn = some idx ∧ idx < g.conns.length - 1 ∧
      g1 = { g with
              conns := (g.conns.set idx (g.conns.getD (g.conns.length - 1) 0)).dropLast,
              keys := mdelete (minsert g.keys (g.conns.getD (g.conns.length - 1) 0) idx) conn }) := by
  unfold removeClientConn at h
  cases hk : mlookup g.keys conn with
  | none =>
    rw [hk] at h
    exact Or.inl ⟨rfl, (Option.some.inj h).symm⟩
  | some idx =>
    rw [hk] at h
    simp only [] at h
    by_cases hc : (idx : Int) = (g.conns.length : Int) - 1
    · rw [if_pos hc] at h
      exact Or.inr (Or.inl ⟨idx, rfl, by omega, by omega, (Option.some.inj h).symm⟩)
    · rw [if_neg hc] at h
      cases hlast : g.conns.getLast? with
      | none => rw [hlast] at h; simp only [] at h; cases h
      | some lastConn =>
        rw [hlast] at h
        simp only [] at h
        by_cases hi : idx < g.conns.length
        · rw [if_pos hi] at h
          have hpos : 0 < g.conns.length := by omega
          have hl : lastConn = g.conns.getD (g.conns.length - 1) 0 := by
            have := getLast?_eq_getD hpos
            rw [hlast] at this
            exact Option.some.inj this
          refine Or.inr (Or.inr ⟨idx, rfl, by omega, ?_⟩)
          rw [← Option.some.inj h, hl]
        · rw [if_neg hi] at h; cases h

/-- A connection that belongs to a well-formed group can always be
removed without panicking. -/
theorem removeClientConn_isSome {g : Group} {conn : Conn}
    (hInv : groupInv g) (hmem : conn ∈ g.conns) :
    ∃ g1, removeClientConn g conn = some g1 := by
  obtain ⟨j, hj⟩ := List.mem_iff_getElem?.mp hmem
  have hjlt : j < g.conns.length := by
    by_contra hge
    rw [List.getElem?_eq_none (by omega)] at hj
    cases hj
  have hkey : mlookup g.keys conn = some j := by
    have := hInv.2.2 j hjlt
    rw [getD_getElem? hjlt] at hj
    rw [Option.some.inj hj] at this
    exact this
  unfold removeClientConn
  rw [hkey]
  simp only []
  by_cases hc : (j : Int) = (g.conns.length : Int) - 1
  · rw [if_pos hc]; exact ⟨_, rfl⟩
  · rw [if_neg hc]
    rw [getLast?_eq_getD (by omega)]
    simp only []
    rw [if_pos hjlt]
    exact ⟨_, rfl⟩

theorem getD_dropLast {l : List Conn} {i : Nat} (hi : i < l.length - 1) :
    l.dropLast.getD i 0 = l.getD i 0 := by
  rw [List.getD_eq_getElem?_getD, List.getD_eq_getElem?_getD, getElem?_dropLast hi]

theorem nodup_getElem?_inj {l : List Conn} (hnd : l.Nodup) {i j : Nat}
    (hi : i < l.length) (hj : j < l.length) (h : l[i]? = l[j]?) : i = j := by
  rcases Nat.lt_trichotomy i j with hh | hh | hh
  · exact absurd h (List.nodup_iff_getElem?_ne_getElem?.mp hnd i j hh hj)
  · exact hh
  · exact absurd h.symm (List.nodup_iff_getElem?_ne_getElem?.mp hnd j i hh hi)

/-- In a well-formed group, a live connection's index-map entry is its
position in `conns`. -/
theorem groupInv_mem_key {g : Group} {conn : Conn} (hInv : groupInv g)
    (hmem : conn ∈ g.conns) :
    ∃ p, p < g.conns.length ∧ g.conns[p]? = some conn ∧ mlookup g.keys conn = some p := by
  obtain ⟨p, hp⟩ := List.mem_iff_getElem?.mp hmem
  have hplt : p < g.conns.length := by
    by_contra hge
    rw [List.getElem?_eq_none (by omega)] at hp
    cases hp
  refine ⟨p, hplt, hp, ?_⟩
  have := hInv.2.2 p hplt
  rw [getD_getElem? hplt] at hp
  rwa [Option.some.inj hp] at this

/-- Adding a fresh connection with `addConnG` preserves group well-formedness;
the new connection sits at the end with the matching index entry. -/
theorem groupInv_addConnG {g : Group} {conn : Conn} (hInv : groupInv g)
    (hc : conn ∉ g.conns) : groupInv (addConnG g conn) := by
  obtain ⟨hnd, hknd, hback⟩ := hInv
  refine ⟨?_, nodup_fst_minsert _ _ hknd, ?_⟩
  · simpa [addConnG, List.nodup_append] using ⟨hnd, hc⟩
  · intro i hi
    have hlen : (addConnG g conn).conns.length = g.conns.length + 1 := by
      simp [addConnG]
    rw [hlen] at hi
    show mlookup (minsert g.keys conn g.conns.length) ((g.conns ++ [conn]).getD i 0) = some i
    by_cases hilt : i < g.conns.length
    · have hx : (g.conns ++ [conn]).getD i 0 = g.conns.getD i 0 := by
        rw [List.getD_eq_getElem?_getD, List.getD_eq_getElem?_getD,
          List.getElem?_append_left hilt]
      rw [hx]
      have hxc : ¬ g.conns.getD i 0 = conn := by
        intro hh
        exact hc (hh ▸ List.mem_iff_getElem?.mpr ⟨i, getD_getElem? hilt⟩)
      rw [mlookup_minsert_ne _ _ hxc]
      exact hback i hilt
    · have hieq : i = g.conns.length := by omega
      subst hieq
      have hx : (g.conns ++ [conn]).getD g.conns.length 0 = conn := by
        rw [List.getD_eq_getElem?_getD]
        simp
      rw [hx, mlookup_minsert_self]

/-- Removal via `removeClientConn` preserves group well-formedness and only ever
shrinks the connection list (the address, cursor and flag are
untouched). -/
theorem groupInv_remove {g g1 : Group} {conn : Conn} (hInv : groupInv g)
    (h : removeClientConn g conn = some g1) :
    groupInv g1 ∧ g1.addr = g.addr ∧ g1.dialing = g.dialing ∧ g1.connIdx = g.connIdx ∧
      g1.conns.length ≤ g.conns.length ∧ ∀ x ∈ g1.conns, x ∈ g.conns := by
  obtain ⟨hnd, hknd, hback⟩ := hInv
  rcases removeClientConn_some_inv h with ⟨hk, rfl⟩ | ⟨idx, hk, hpos, hidx, rfl⟩ |
    ⟨idx, hk, hidx, rfl⟩
  · exact ⟨⟨hnd, hknd, hback⟩, rfl, rfl, rfl, le_refl _, fun x hx => hx⟩
  · refine ⟨⟨List.Nodup.sublist (List.dropLast_sublist g.conns) hnd, hknd, ?_⟩,
      rfl, rfl, rfl, ?_, ?_⟩
    · intro i hi
      have hi1 : i < g.conns.length - 1 := by
        simpa using hi
      show mlookup g.keys (g.conns.dropLast.getD i 0) = some i
      rw [getD_dropLast hi1]
      exact hback i (by omega)
    · simp
    · intro x hx
      exact (List.dropLast_sublist g.conns).subset hx
  · -- swap-with-last branch
    set n := g.conns.length with hn
    set last := g.conns.getD (n - 1) 0 with hlast
    have hn2 : 2 ≤ n := by omega
    have hlastElem : g.conns[n - 1]? = some last := getD_getElem? (by omega)
    have hlastKey : mlookup g.keys last = some (n - 1) := hback (n - 1) (by omega)
    have hcl : conn ≠ last := by
      intro hh
      rw [hh, hlastKey] at hk
      have := Option.some.inj hk
      omega
    have hchar : ∀ i, i < n - 1 →
        ((g.conns.set idx last).dropLast)[i]? = if idx = i then some last else g.conns[i]? :=
      fun i hi => getElem?_setDropLast last hi
    have hlen1 : ((g.conns.set idx last).dropLast).length = n - 1 := by
      simp [hn]
    have hnd1 : ((g.conns.set idx last).dropLast).Nodup := by
      rw [List.nodup_iff_getElem?_ne_getElem?]
      intro i j hij hj heq
      rw [hlen1] at hj
      rw [hchar i (by omega), hchar j hj] at heq
      by_cases hi : idx = i
      · rw [if_pos hi, if_neg (by omega)] at heq
        have : n - 1 = j := nodup_getElem?_inj hnd (by omega) (by omega)
          (by rw [hlastElem, heq])
        omega
      · rw [if_neg hi] at heq
        by_cases hjx : idx = j
        · rw [if_pos hjx] at heq
          have : i = n - 1 := nodup_getElem?_inj hnd (by omega) (by omega)
            (by rw [hlastElem, ← heq])
          omega
        · rw [if_neg hjx] at heq
          have : i = j := nodup_getElem?_inj hnd (by omega) (by omega) heq
          omega
    refine ⟨⟨hnd1, nodup_fst_mdelete _ (nodup_fst_minsert _ _ hknd), ?_⟩,
      rfl, rfl, rfl, by rw [hlen1]; omega, ?_⟩
    · intro i hi
      rw [hlen1] at hi
      have hx : ((g.conns.set idx last).dropLast)[i]? =
          some (((g.conns.set idx last).dropLast).getD i 0) :=
        getD_getElem? (by rw [hlen1]; omega)
      set x := ((g.conns.set idx last).dropLast).getD i 0 with hxdef
      show mlookup (mdelete (minsert g.keys last idx) conn) x = some i
      rw [hchar i hi] at hx
      by_cases hiidx : idx = i
      · rw [if_pos hiidx] at hx
        have hxl : x = last := (Option.some.inj hx).symm
        rw [hxl, mlookup_mdelete_ne _ (fun hh => hcl hh.symm), mlookup_minsert_self]
        rw [hiidx]
      · rw [if_neg hiidx] at hx
        have hxi : g.conns[i]? = some x := hx
        have hxmem : g.conns.getD i 0 = x := by
          have := getD_getElem? (l := g.conns) (i := i) (by omega)
          rw [hxi] at this
          exact (Option.some.inj this).symm
        have hkx : mlookup g.keys x = some i := hxmem ▸ hback i (by omega)
        have hxconn : ¬ x = conn := by
          intro hh
          rw [hh, hk] at hkx
          exact hiidx (Option.some.inj hkx)
        have hxlast : ¬ x = last := by
          intro hh
          rw [hh, hlastKey] at hkx
          have := Option.some.inj hkx
          omega
        rw [mlookup_mdelete_ne _ hxconn, mlookup_minsert_ne _ _ hxlast]
        exact hkx
    · intro x hxmem
      obtain ⟨i, hi⟩ := List.mem_iff_getElem?.mp hxmem
      have hilt : i < n - 1 := by
        by_contra hge
        rw [List.getElem?_eq_none (by rw [hlen1]; omega)] at hi
        cases hi
      rw [hchar i hilt] at hi
      by_cases hiidx : idx = i
      · rw [if_pos hiidx] at hi
        rw [← Option.some.inj hi]
        exact List.mem_iff_getElem?.mpr ⟨n - 1, hlastElem⟩
      · rw [if_neg hiidx] at hi
        exact List.mem_iff_getElem?.mpr ⟨i, hi⟩

/-- Removing a live connection of a well-formed group shrinks the list
by one, expels exactly that connection and keeps every other one. -/
theorem groupInv_remove_mem {g g1 : Group} {conn : Conn} (hInv : groupInv g)
    (hmem : conn ∈ g.conns) (h : removeClientConn g conn = some g1) :
    g1.conns.length = g.conns.length - 1 ∧ conn ∉ g1.conns ∧
      ∀ x ∈ g.conns, x ≠ conn → x ∈ g1.conns := by
  obtain ⟨p, hplt, hpget, hpkey⟩ := groupInv_mem_key hInv hmem
  have hnd := hInv.1
  have hback := hInv.2.2
  rcases removeClientConn_some_inv h with ⟨hk, rfl⟩ | ⟨idx, hk, hpos, hidx, rfl⟩ |
    ⟨idx, hk, hidx, rfl⟩
  · rw [hk] at hpkey; cases hpkey
  · -- last-element branch: the entry is genuine, so `conn` sits at the end
    have hpidx : p = idx := by
      rw [hpkey] at hk; exact Option.some.inj hk
    have hplen : p = g.conns.length - 1 := by omega
    refine ⟨by simp, ?_, ?_⟩
    · intro hcmem
      obtain ⟨i, hi⟩ := List.mem_iff_getElem?.mp hcmem
      have hilt : i < g.conns.length - 1 := by
        by_contra hge
        rw [List.getElem?_eq_none (by simp; omega)] at hi
        cases hi
      rw [getElem?_dropLast hilt] at hi
      have : i = p := nodup_getElem?_inj hnd (by omega) hplt (by rw [hi, hpget])
      omega
    · intro x hx hxc
      obtain ⟨j, hj⟩ := List.mem_iff_getElem?.mp hx
      have hjlt : j < g.conns.length := by
        by_contra hge
        rw [List.getElem?_eq_none (by omega)] at hj
        cases hj
      have hjne : j ≠ p := by
        intro hh
        rw [hh, hpget] at hj
        exact hxc (Option.some.inj hj).symm
      have hjlt1 : j < g.conns.length - 1 := by omega
      exact List.mem_iff_getElem?.mpr ⟨j, by rw [getElem?_dropLast hjlt1]; exact hj⟩
  · -- swap-with-last branch
    have hpidx : p = idx := by
      rw [hpkey] at hk; exact Option.some.inj hk
    subst hpidx
    set n := g.conns.length with hn
    set last := g.conns.getD (n - 1) 0 with hlastdef
    have hlastElem : g.conns[n - 1]? = some last := getD_getElem? (by omega)
    have hchar : ∀ i, i < n - 1 →
        ((g.conns.set p last).dropLast)[i]? = if p = i then some last else g.conns[i]? :=
      fun i hi => getElem?_setDropLast last hi
    have hlen1 : ((g.conns.set p last).dropLast).length = n - 1 := by simp [hn]
    have hcl : conn ≠ last := by
      intro hh
      have : n - 1 = p := nodup_getElem?_inj hnd (by omega) hplt (by rw [hlastElem, ← hh, hpget])
      omega
    refine ⟨by rw [hlen1], ?_, ?_⟩
    · intro hcmem
      obtain ⟨i, hi⟩ := List.mem_iff_getElem?.mp hcmem
      have hilt : i < n - 1 := by
        by_contra hge
        rw [List.getElem?_eq_none (by rw [hlen1]; omega)] at hi
        cases hi
      rw [hchar i hilt] at hi
      by_cases hip : p = i
      · rw [if_pos hip] at hi
        exact hcl (Option.some.inj hi).symm
      · rw [if_neg hip] at hi
        have : i = p := nodup_getElem?_inj hnd (by omega) hplt (by rw [hi, hpget])
        exact hip this.symm
    · intro x hx hxc
      obtain ⟨j, hj⟩ := List.mem_iff_getElem?.mp hx
      have hjlt : j < n := by
        by_contra hge
        rw [List.getElem?_eq_none (by omega)] at hj
        cases hj
      have hjne : j ≠ p := by
        intro hh
        rw [hh, hpget] at hj
        exact hxc (Option.some.inj hj).symm
      by_cases hjlast : j = n - 1
      · -- x is the last connection: it moved to slot p
        have hxl : x = last := by
          rw [hjlast, hlastElem] at hj
          exact (Option.some.inj hj).symm
        refine List.mem_iff_getElem?.mpr ⟨p, ?_⟩
        rw [hchar p (by omega), if_pos rfl, hxl]
      · have hjlt1 : j < n - 1 := by omega
        refine List.mem_iff_getElem?.mpr ⟨j, ?_⟩
        rw [hchar j hjlt1, if_neg (fun hh => hjne hh.symm)]
        exact hj

/-! ### Characterization of `markDead` and `getClientConnG`. -/

theorem markDead_some_inv {p p1 : Pool} {conn : Conn} (h : markDead p conn = some p1) :
    (mlookup p.keys conn = none ∧ p1 = p) ∨
    (∃ addr, mlookup p.keys conn = some addr ∧ mlookup p.groups addr = none ∧
      p1 = { p with keys := mdelete p.keys conn }) ∨
    (∃ addr g g1, mlookup p.keys conn = some addr ∧ mlookup p.groups addr = some g ∧
      removeClientConn g conn = some g1 ∧
      ((g1.conns.length = 0 ∧
        p1 = { p with keys := mdelete p.keys conn, groups := mdelete p.groups addr }) ∨
       (g1.conns.length ≠ 0 ∧
        p1 = { p with keys := mdelete p.keys conn, groups := minsert p.groups addr g1 }))) := by
  unfold markDead at h
  cases hk : mlookup p.keys conn with
  | none =>
    rw [hk] at h
    exact Or.inl ⟨rfl, (Option.some.inj h).symm⟩
  | some addr =>
    rw [hk] at h
    simp only [] at h
    cases hg : mlookup p.groups addr with
    | none =>
      rw [hg] at h
      simp only [] at h
      exact Or.inr (Or.inl ⟨addr, rfl, hg, (Option.some.inj h).symm⟩)
    | some g =>
      rw [hg] at h
      simp only [] at h
      cases hr : removeClientConn g conn with
      | none => rw [hr] at h; simp only [] at h; cases h
      | some g1 =>
        rw [hr] at h
        simp only [] at h
        by_cases hz : g1.conns.length = 0
        · rw [if_pos hz] at h
          exact Or.inr (Or.inr ⟨addr, g, g1, rfl, hg, hr,
            Or.inl ⟨hz, (Option.some.inj h).symm⟩⟩)
        · rw [if_neg hz] at h
          exact Or.inr (Or.inr ⟨addr, g, g1, rfl, hg, hr,
            Or.inr ⟨hz, (Option.some.inj h).symm⟩⟩)

/-- After a completed `markDead`, the connection no longer owns an
entry in the pool's ownership map. -/
theorem markDead_keys_gone {p p1 : Pool} {conn : Conn} (h : markDead p conn = some p1) :
    mlookup p1.keys conn = none := by
  rcases markDead_some_inv h with ⟨hk, rfl⟩ | ⟨addr, hk, hg, rfl⟩ |
    ⟨addr, g, g1, hk, hg, hr, hcase⟩
  · exact hk
  · exact mlookup_mdelete_self p.keys conn
  · rcases hcase with ⟨hz, rfl⟩ | ⟨hz, rfl⟩ <;> exact mlookup_mdelete_self p.keys conn

/-- Calling `markDead` on a connection with no ownership entry is a no-op. -/
theorem markDead_no_entry {p : Pool} {conn : Conn} (hk : mlookup p.keys conn = none) :
    markDead p conn = some p := by
  unfold markDead
  rw [hk]

theorem getClientConnG_empty_fail {canTake : Conn → Bool} {p : Pool} {g : Group}
    (hlen : g.conns.length = 0) :
    getClientConnG canTake none p g = ⟨Except.error PoolError.dialError, p, g, true, false⟩ := by
  unfold getClientConnG
  rw [if_pos hlen]

theorem getClientConnG_empty_dial {canTake : Conn → Bool} {p : Pool} {g : Group} {conn : Conn}
    (hlen : g.conns.length = 0) :
    getClientConnG canTake (some conn) p g =
      ⟨Except.ok conn, { p with keys := minsert p.keys conn g.addr },
        addConnG g conn, true, false⟩ := by
  unfold getClientConnG
  rw [if_pos hlen]
  rfl

theorem getClientConnG_sel_some {canTake : Conn → Bool} {dial : Option Conn} {p : Pool}
    {g : Group} {conn : Conn} {idx : Nat} (hlen : ¬ g.conns.length = 0)
    (hsel : selectLoop canTake g.conns g.connIdx g.conns.length = (some conn, idx)) :
    getClientConnG canTake dial p g =
      ⟨Except.ok conn, p, { g with connIdx := idx }, false,
        decide (p.maxConnsPerHost ≤ 0 ∨ (g.conns.length : Int) < p.maxConnsPerHost)⟩ := by
  unfold getClientConnG
  rw [if_neg hlen, hsel]

theorem getClientConnG_sel_none {canTake : Conn → Bool} {dial : Option Conn} {p : Pool}
    {g : Group} {idx : Nat} (hlen : ¬ g.conns.length = 0)
    (hsel : selectLoop canTake g.conns g.connIdx g.conns.length = (none, idx)) :
    getClientConnG canTake dial p g =
      ⟨Except.error (PoolError.noAvailableConn g.addr), p, { g with connIdx := idx }, false,
        decide (p.maxConnsPerHost ≤ 0 ∨ (g.conns.length : Int) < p.maxConnsPerHost)⟩ := by
  unfold getClientConnG
  rw [if_neg hlen, hsel]

/-- On the non-empty path, `getClientConnG` leaves the pool untouched
and only moves the group's cursor; in particular the connection list is
unchanged and no synchronous dial runs. -/
theorem getClientConnG_nonempty_frame {canTake : Conn → Bool} {dial : Option Conn}
    {p : Pool} {g : Group} (hlen : ¬ g.conns.length = 0) :
    (getClientConnG canTake dial p g).p = p ∧
    (getClientConnG canTake dial p g).g.conns = g.conns ∧
    (getClientConnG canTake dial p g).g.keys = g.keys ∧
    (getClientConnG canTake dial p g).g.addr = g.addr ∧
    (getClientConnG canTake dial p g).g.dialing = g.dialing ∧
    (getClientConnG canTake dial p g).syncDialed = false := by
  obtain ⟨o, idx⟩ : ∃ o idx, selectLoop canTake g.conns g.connIdx g.conns.length = (o, idx) :=
    ⟨_, _, rfl⟩
  obtain ⟨idx, hsel⟩ := idx
  cases o with
  | none => rw [getClientConnG_sel_none hlen hsel]; exact ⟨rfl, rfl, rfl, rfl, rfl, rfl⟩
  | some conn => rw [getClientConnG_sel_some hlen hsel]; exact ⟨rfl, rfl, rfl, rfl, rfl, rfl⟩

/-! ### Pool-invariant preservation. -/

theorem removeClientConn_length_le {g g1 : Group} {conn : Conn}
    (h : removeClientConn g conn = some g1) : g1.conns.length ≤ g.conns.length := by
  rcases removeClientConn_some_inv h with ⟨_, rfl⟩ | ⟨idx, _, _, _, rfl⟩ | ⟨idx, _, _, rfl⟩
  · exact le_refl _
  · simp
  · simp

/-- The pool invariant implies the spec's bidirectional correspondence
between the ownership map and the groups' connection lists. -/
theorem poolInv_corr {p : Pool} (hInv : poolInv p) : corr p := by
  obtain ⟨hKeys, hGroups, _, _⟩ := hInv
  constructor
  · intro e he
    obtain ⟨g, hg, hc⟩ := hKeys e he
    exact ⟨(e.2, g), mlookup_some_mem hg, hc⟩
  · intro eg heg c hc
    exact ⟨(c, eg.1), mlookup_some_mem ((hGroups eg heg).2.2 c hc), rfl⟩

/-- Retirement via `markDead` preserves the pool invariant. -/
theorem poolInv_markDead {p p1 : Pool} {conn : Conn} (hInv : poolInv p)
    (h : markDead p conn = some p1) : poolInv p1 := by
  obtain ⟨hKeys, hGroups, hKnd, hGnd⟩ := hInv
  rcases markDead_some_inv h with ⟨hk, rfl⟩ | ⟨addr, hk, hg, rfl⟩ |
    ⟨addr, g, g1, hk, hg, hr, hcase⟩
  · exact ⟨hKeys, hGroups, hKnd, hGnd⟩
  · obtain ⟨g, hgg, _⟩ := hKeys (conn, addr) (mlookup_some_mem hk)
    rw [hg] at hgg; cases hgg
  · have hmemk : (conn, addr) ∈ p.keys := mlookup_some_mem hk
    obtain ⟨g0, hg0, hconn0⟩ := hKeys _ hmemk
    have hg0g : g0 = g := by rw [hg] at hg0; exact (Option.some.inj hg0).symm
    rw [hg0g] at hconn0
    have hmemg : (addr, g) ∈ p.groups := mlookup_some_mem hg
    obtain ⟨haddr, hgInv, hgown⟩ := hGroups _ hmemg
    obtain ⟨hgInv1, haddr1, _, _, _, hsub1⟩ := groupInv_remove hgInv hr
    obtain ⟨_, hnotin, hkeep⟩ := groupInv_remove_mem hgInv hconn0 hr
    rcases hcase with ⟨hz, rfl⟩ | ⟨hz, rfl⟩
    · -- the group became empty and is deleted from the registry
      refine ⟨?_, ?_, nodup_fst_mdelete _ hKnd, nodup_fst_mdelete _ hGnd⟩
      · intro e he
        obtain ⟨hem, hene⟩ := mem_mdelete_iff.mp he
        obtain ⟨g2, hg2, hconn2⟩ := hKeys e hem
        by_cases hea : e.2 = addr
        · rw [hea] at hg2
          have hg2g : g2 = g := by rw [hg] at hg2; exact (Option.some.inj hg2).symm
          rw [hg2g] at hconn2
          have : e.1 ∈ g1.conns := hkeep e.1 hconn2 hene
          rw [List.length_eq_zero.mp hz] at this
          cases this
        · refine ⟨g2, ?_, hconn2⟩
          show mlookup (mdelete p.groups addr) e.2 = some g2
          rw [mlookup_mdelete_ne _ hea]
          exact hg2
      · intro e he
        obtain ⟨hem, hene⟩ := mem_mdelete_iff.mp he
        obtain ⟨hea, heInv, heown⟩ := hGroups e hem
        refine ⟨hea, heInv, ?_⟩
        intro c hc
        have hco := heown c hc
        have hcne : ¬ c = conn := by
          intro hh
          rw [hh, hk] at hco
          exact hene (Option.some.inj hco).symm
        show mlookup (mdelete p.keys conn) c = some e.1
        rw [mlookup_mdelete_ne _ hcne]
        exact hco
    · -- the group stays registered with the shrunk connection list
      refine ⟨?_, ?_, nodup_fst_mdelete _ hKnd, nodup_fst_minsert _ _ hGnd⟩
      · intro e he
        obtain ⟨hem, hene⟩ := mem_mdelete_iff.mp he
        obtain ⟨g2, hg2, hconn2⟩ := hKeys e hem
        by_cases hea : e.2 = addr
        · rw [hea] at hg2
          have hg2g : g2 = g := by rw [hg] at hg2; exact (Option.some.inj hg2).symm
          rw [hg2g] at hconn2
          refine ⟨g1, ?_, hkeep e.1 hconn2 hene⟩
          show mlookup (minsert p.groups addr g1) e.2 = some g1
          rw [hea, mlookup_minsert_self]
        · refine ⟨g2, ?_, hconn2⟩
          show mlookup (minsert p.groups addr g1) e.2 = some g2
          rw [mlookup_minsert_ne _ _ hea]
          exact hg2
      · intro e he
        rcases mem_minsert_iff.mp he with rfl | ⟨hem, hene⟩
        · refine ⟨by rw [haddr1, haddr], hgInv1, ?_⟩
          intro c hc
          have hcg : c ∈ g.conns := hsub1 c hc
          have hco := hgown c hcg
          have hcne : ¬ c = conn := fun hh => hnotin (hh ▸ hc)
          show mlookup (mdelete p.keys conn) c = some addr
          rw [mlookup_mdelete_ne _ hcne]
          exact hco
        · obtain ⟨hea, heInv, heown⟩ := hGroups e hem
          refine ⟨hea, heInv, ?_⟩
          intro c hc
          have hco := heown c hc
          have hcne : ¬ c = conn := by
            intro hh
            rw [hh, hk] at hco
            exact hene (Option.some.inj hco).symm
          show mlookup (mdelete p.keys conn) c = some e.1
          rw [mlookup_mdelete_ne _ hcne]
          exact hco

/-- Registering a freshly dialed connection into a registered group
preserves the pool invariant. -/
theorem poolInv_addConn {p : Pool} {g : Group} {addr : String} {conn : Conn}
    (hInv : poolInv p) (hg : mlookup p.groups addr = some g)
    (hfresh : mlookup p.keys conn = none) :
    poolInv (setGroup (addClientConn p g conn).1 addr (addClientConn p g conn).2) := by
  obtain ⟨hKeys, hGroups, hKnd, hGnd⟩ := hInv
  have hmemg : (addr, g) ∈ p.groups := mlookup_some_mem hg
  obtain ⟨haddr, hgInv, hgown⟩ := hGroups _ hmemg
  have hfreshAll : ∀ e ∈ p.groups, conn ∉ e.2.conns := by
    intro e he hc
    have := (hGroups e he).2.2 conn hc
    rw [hfresh] at this
    cases this
  refine ⟨?_, ?_, nodup_fst_minsert _ _ hKnd, nodup_fst_minsert _ _ hGnd⟩
  · intro e he
    rcases mem_minsert_iff.mp he with rfl | ⟨hem, hene⟩
    · refine ⟨addConnG g conn, ?_, ?_⟩
      · show mlookup (minsert p.groups addr (addConnG g conn)) g.addr = some (addConnG g conn)
        rw [haddr, mlookup_minsert_self]
      · show conn ∈ g.conns ++ [conn]
        simp
    · obtain ⟨g2, hg2, hconn2⟩ := hKeys e hem
      by_cases hea : e.2 = addr
      · rw [hea] at hg2
        have hg2g : g2 = g := by rw [hg] at hg2; exact (Option.some.inj hg2).symm
        rw [hg2g] at hconn2
        refine ⟨addConnG g conn, ?_, ?_⟩
        · show mlookup (minsert p.groups addr (addConnG g conn)) e.2 = some (addConnG g conn)
          rw [hea, mlookup_minsert_self]
        · show e.1 ∈ g.conns ++ [conn]
          exact List.mem_append_left _ hconn2
      · refine ⟨g2, ?_, hconn2⟩
        show mlookup (minsert p.groups addr (addConnG g conn)) e.2 = some g2
        rw [mlookup_minsert_ne _ _ hea]
        exact hg2
  · intro e he
    rcases mem_minsert_iff.mp he with rfl | ⟨hem, hene⟩
    · refine ⟨haddr, groupInv_addConnG hgInv (hfreshAll _ hmemg), ?_⟩
      intro c hc
      rcases List.mem_append.mp hc with hcg | hcc
      · have hcne : ¬ c = conn := fun hh => hfreshAll _ hmemg (hh ▸ hcg)
        show mlookup (minsert p.keys conn g.addr) c = some addr
        rw [mlookup_minsert_ne _ _ hcne]
        exact hgown c hcg
      · have hcc : c = conn := by simpa using hcc
        show mlookup (minsert p.keys conn g.addr) c = some addr
        rw [hcc, mlookup_minsert_self, haddr]
    · obtain ⟨hea, heInv, heown⟩ := hGroups e hem
      refine ⟨hea, heInv, ?_⟩
      intro c hc
      have hcne : ¬ c = conn := fun hh => hfreshAll e hem (hh ▸ hc)
      show mlookup (minsert p.keys conn g.addr) c = some e.1
      rw [mlookup_minsert_ne _ _ hcne]
      exact heown c hc

/-! ### Round-robin residue counting. -/

/-- Among `N` consecutive offsets there is exactly one `k` with
`(a + k) % N = j`. -/
theorem mod_window_unique (N a j : Nat) (hN : 0 < N) (hj : j < N) :
    ∃ k, k < N ∧ (a + k) % N = j ∧ ∀ k2, k2 < N → (a + k2) % N = j → k2 = k := by
  have hit : (a + (j + N - a % N) % N) % N = j := by
    have heq : a + (j + N - a % N) = (j + N) + N * (a / N) := by
      have := Nat.div_add_mod a N
      have := Nat.mod_lt a hN
      omega
    rw [Nat.add_mod_mod, heq, Nat.add_mul_mod_self_left, Nat.add_mod_right,
      Nat.mod_eq_of_lt hj]
  refine ⟨(j + N - a % N) % N, Nat.mod_lt _ hN, hit, ?_⟩
  intro k2 hk2 h2
  have hm : Nat.ModEq N (a + k2) (a + (j + N - a % N) % N) := by
    unfold Nat.ModEq
    rw [h2, hit]
  have hmk : Nat.ModEq N k2 ((j + N - a % N) % N) := hm.add_left_cancel'
  unfold Nat.ModEq at hmk
  rw [Nat.mod_eq_of_lt hk2, Nat.mod_mod_of_dvd _ (dvd_refl N)] at hmk
  exact hmk

theorem length_le_one_of_all_eq {l : List Nat} (hnd : l.Nodup) (k : Nat)
    (hall : ∀ x ∈ l, x = k) : l.length ≤ 1 := by
  match l, hnd with
  | [], _ => exact Nat.zero_le 1
  | [x], _ => exact le_refl 1
  | x :: y :: t, hnd =>
    exfalso
    have hx : x = k := hall x (by simp)
    have hy : y = k := hall y (by simp)
    rw [List.nodup_cons] at hnd
    exact hnd.1 (by rw [hx, ← hy]; simp)

/-- In a full window of `N` offsets the residue `j` is hit exactly once. -/
theorem countP_range_window (N a j : Nat) (hN : 0 < N) (hj : j < N) :
    (List.range N).countP (fun k => (a + k) % N = j) = 1 := by
  obtain ⟨k0, hk0, hhit, huniq⟩ := mod_window_unique N a j hN hj
  apply le_antisymm
  · rw [List.countP_eq_length_filter]
    apply length_le_one_of_all_eq (List.Nodup.filter _ (List.nodup_range N)) k0
    intro x hx
    obtain ⟨hxr, hxp⟩ := List.mem_filter.mp hx
    exact huniq x (List.mem_range.mp hxr) (by simpa using hxp)
  · have : 0 < (List.range N).countP (fun k => (a + k) % N = j) :=
      List.countP_pos_iff.mpr ⟨k0, List.mem_range.mpr hk0, by simpa using hhit⟩
    omega

theorem countP_range_mod_add (N a j M : Nat) (hN : 0 < N) (hj : j < N) :
    (List.range (M + N)).countP (fun k => (a + k) % N = j) =
      (List.range M).countP (fun k => (a + k) % N = j) + 1 := by
  rw [List.range_add, List.countP_append]
  congr 1
  rw [List.countP_map]
  have hcg : ∀ x ∈ List.range N,
      (((fun k => decide ((a + k) % N = j)) ∘ (fun y => M + y)) x = true ↔
        (fun k => decide (((a + M) + k) % N = j)) x = true) := by
    intro x _
    simp only [Function.comp]
    have harg : a + (M + x) = (a + M) + x := by omega
    rw [harg]
  rw [List.countP_congr hcg]
  exact countP_range_window N (a + M) j hN hj

/-- Over any window of `M` consecutive offsets, the residue `j` is hit
between `⌊M/N⌋` and `⌈M/N⌉` times. -/
theorem countP_range_mod_bounds (N a j M : Nat) (hN : 0 < N) (hj : j < N) :
    M / N ≤ (List.range M).countP (fun k => (a + k) % N = j) ∧
      (List.range M).countP (fun k => (a + k) % N = j) ≤ (M + N - 1) / N := by
  obtain ⟨q, r, hr, hM⟩ : ∃ q r, r < N ∧ M = N * q + r :=
    ⟨M / N, M % N, Nat.mod_lt M hN, (Nat.div_add_mod M N).symm⟩
  subst hM
  have hsplit : ∀ qq, (List.range (N * qq + r)).countP (fun k => (a + k) % N = j) =
      qq + (List.range r).countP (fun k => (a + k) % N = j) := by
    intro qq
    induction qq with
    | zero => simp
    | succ qp ih =>
      have hq : N * (qp + 1) + r = (N * qp + r) + N := by ring
      rw [hq, countP_range_mod_add N a j (N * qp + r) hN hj, ih]
      omega
  rw [hsplit q]
  have hcr : (List.range r).countP (fun k => (a + k) % N = j) ≤ 1 := by
    calc (List.range r).countP (fun k => (a + k) % N = j)
        ≤ (List.range N).countP (fun k => (a + k) % N = j) :=
          List.Sublist.countP_le _ (List.range_sublist.mpr (le_of_lt hr))
      _ = 1 := countP_range_window N a j hN hj
  constructor
  · have hdiv : (N * q + r) / N = q := by
      have hq : N * q + r = r + N * q := by ring
      rw [hq, Nat.add_mul_div_left r q hN, Nat.div_eq_of_lt hr]
      omega
    rw [hdiv]
    omega
  · by_cases hr0 : r = 0
    · subst hr0
      have hc0 : (List.range 0).countP (fun k => (a + k) % N = j) = 0 := rfl
      rw [hc0]
      have heq : N * q + 0 + N - 1 = (N - 1) + N * q := by omega
      rw [heq, Nat.add_mul_div_left _ q hN, Nat.div_eq_of_lt (by omega)]
      omega
    · have heq : N * q + r + N - 1 = ((r - 1) + N * 1) + N * q := by
        have : N * 1 = N := by ring
        omega
      rw [heq, Nat.add_mul_div_left _ q hN, Nat.add_mul_div_left _ 1 hN,
        Nat.div_eq_of_lt (by omega)]
      omega

/-! ### The selection loop. -/

theorem selectLoop_step {canTake : Conn → Bool} {conns : List Conn} {idx fuel : Nat} :
    selectLoop canTake conns idx (fuel + 1) =
      if canTake (conns.getD ((idx + 1) % conns.length) 0) then
        (some (conns.getD ((idx + 1) % conns.length) 0), idx + 1)
      else selectLoop canTake conns (idx + 1) fuel := rfl

/-- When every connection can take a request, each call picks the next
rotation slot immediately. -/
theorem selectLoop_pos_all {canTake : Conn → Bool} {conns : List Conn}
    (hall : ∀ c ∈ conns, canTake c = true) (hN : 0 < conns.length)
    (idx fuel : Nat) (hf : 0 < fuel) :
    selectLoop canTake conns idx fuel =
      (some (conns.getD ((idx + 1) % conns.length) 0), idx + 1) := by
  obtain ⟨f2, rfl⟩ : ∃ f2, fuel = f2 + 1 := ⟨fuel - 1, by omega⟩
  rw [selectLoop_step,
    if_pos (hall _ (List.mem_iff_getElem?.mpr ⟨_, getD_getElem? (Nat.mod_lt _ hN)⟩))]

theorem selectLoop_none_iff {canTake : Conn → Bool} {conns : List Conn} :
    ∀ fuel idx, (selectLoop canTake conns idx fuel).1 = none ↔
      ∀ k < fuel, canTake (conns.getD ((idx + 1 + k) % conns.length) 0) = false := by
  intro fuel
  induction fuel with
  | zero => intro idx; simp [selectLoop]
  | succ f ih =>
    intro idx
    rw [selectLoop_step]
    by_cases hc : canTake (conns.getD ((idx + 1) % conns.length) 0)
    · rw [if_pos hc]
      refine iff_of_false (by simp) ?_
      intro hforall
      have h0 := hforall 0 (Nat.succ_pos f)
      rw [Nat.add_zero] at h0
      rw [hc] at h0
      cases h0
    · rw [if_neg hc]
      rw [ih (idx + 1)]
      constructor
      · intro h k hk
        cases k with
        | zero =>
          rw [Nat.add_zero]
          exact Bool.eq_false_iff.mpr hc
        | succ k2 =>
          have hh := h k2 (by omega)
          have harg : idx + 1 + (k2 + 1) = idx + 1 + 1 + k2 := by omega
          rw [harg]
          exact hh
      · intro h k hk
        have hh := h (k + 1) (by omega)
        have harg : idx + 1 + (k + 1) = idx + 1 + 1 + k := by omega
        rw [harg] at hh
        exact hh

/-- Scanning a full cycle of `len(conns)` candidates fails exactly when
no connection at all can take a request. -/
theorem selectLoop_none_full {canTake : Conn → Bool} {conns : List Conn}
    (hN : 0 < conns.length) (idx : Nat) :
    (selectLoop canTake conns idx conns.length).1 = none ↔
      ∀ c ∈ conns, canTake c = false := by
  rw [selectLoop_none_iff conns.length idx]
  constructor
  · intro h c hc
    obtain ⟨j, hj⟩ := List.mem_iff_getElem?.mp hc
    have hjlt : j < conns.length := by
      by_contra hge
      rw [List.getElem?_eq_none (by omega)] at hj
      cases hj
    obtain ⟨k, hk, hhit, _⟩ := mod_window_unique conns.length (idx + 1) j hN hjlt
    have hkf := h k hk
    rw [hhit] at hkf
    have hc2 : conns.getD j 0 = c := by
      have hg := getD_getElem? hjlt
      rw [hj] at hg
      exact (Option.some.inj hg).symm
    rwa [hc2] at hkf
  · intro h k hk
    exact h _ (List.mem_iff_getElem?.mpr ⟨_, getD_getElem? (Nat.mod_lt _ hN)⟩)

/-- Closed form of `M` sequential calls when every connection can take
a request: the pool is untouched, the cursor advances by `M`, and call
`t` returns the connection at rotation slot `(connIdx + 1 + t) % N`. -/
theorem iterCalls_all_take {canTake : Conn → Bool} {dial : Option Conn} {p : Pool} :
    ∀ (M : Nat) (g : Group), (∀ c ∈ g.conns, canTake c = true) → 0 < g.conns.length →
      iterCalls canTake dial p g M =
        (p, { g with connIdx := g.connIdx + M },
          (List.range M).map (fun t =>
            Except.ok (g.conns.getD ((g.connIdx + 1 + t) % g.conns.length) 0))) := by
  intro M
  induction M with
  | zero =>
    intro g hall hN
    rfl
  | succ m ih =>
    intro g hall hN
    have hstep : getClientConnG canTake dial p g =
        ⟨Except.ok (g.conns.getD ((g.connIdx + 1) % g.conns.length) 0), p,
          { g with connIdx := g.connIdx + 1 }, false,
          decide (p.maxConnsPerHost ≤ 0 ∨ (g.conns.length : Int) < p.maxConnsPerHost)⟩ :=
      getClientConnG_sel_some (by omega)
        (selectLoop_pos_all hall hN g.connIdx g.conns.length hN)
    show (let r := getClientConnG canTake dial p g
          let rest := iterCalls canTake dial r.p r.g m
          (rest.1, rest.2.1, r.res :: rest.2.2)) = _
    rw [hstep]
    show (let rest := iterCalls canTake dial p { g with connIdx := g.connIdx + 1 } m
          (rest.1, rest.2.1,
            Except.ok (g.conns.getD ((g.connIdx + 1) % g.conns.length) 0) :: rest.2.2)) = _
    rw [ih { g with connIdx := g.connIdx + 1 } hall hN]
    simp only [Prod.mk.injEq]
    refine ⟨trivial, ?_, ?_⟩
    · have harg : g.connIdx + 1 + m = g.connIdx + (m + 1) := by omega
      show ({ g with connIdx := g.connIdx + 1 + m } : Group) = _
      rw [harg]
    · rw [List.range_succ_eq_map, List.map_cons, List.map_map]
      congr 1
      apply List.map_congr_left
      intro t _
      simp only [Function.comp]
      have harg : g.connIdx + 1 + Nat.succ t = g.connIdx + 1 + 1 + t := by omega
      rw [harg]

/-! ### The interleaved background-dial system. -/

theorem countInside_decomp (l r : List DProc) (pr : DProc) :
    countInside (l ++ pr :: r) =
      countInside l + countInside r + (if insideCAS pr.1 then 1 else 0) := by
  unfold countInside
  rw [List.countP_append, List.countP_cons]
  by_cases h : insideCAS pr.1 <;> simp [h] <;> omega

/-- One interleaved step preserves the mutual-exclusion invariant on
the `dialing` flag. -/
theorem DStep_preserves {cap : Int} {s s1 : DialSys} (h : DStep cap s s1)
    (h1 : countInside s.procs ≤ 1) (h2 : s.flag = false → countInside s.procs = 0) :
    countInside s1.procs ≤ 1 ∧ (s1.flag = false → countInside s1.procs = 0) := by
  cases h with
  | casLose n l r d =>
    simp only [countInside_decomp, insideCAS] at h1 h2 ⊢
    constructor
    · simpa using h1
    · intro hf; cases hf
  | casWin n l r d =>
    simp only [countInside_decomp, insideCAS] at h1 h2 ⊢
    have h0 := h2 trivial
    constructor
    · simp at h0 ⊢; omega
    · intro hf; cases hf
  | capAbort f n l r d hcap =>
    simp only [countInside_decomp, insideCAS] at h1 h2 ⊢
    constructor
    · simpa using h1
    · intro hf; have := h2 hf; simp at this
  | capPass f n l r d hcap =>
    simp only [countInside_decomp, insideCAS] at h1 h2 ⊢
    constructor
    · simpa using h1
    · intro hf; have := h2 hf; simp at this
  | dialOk f n l r =>
    simp only [countInside_decomp, insideCAS] at h1 h2 ⊢
    constructor
    · simpa using h1
    · intro hf; have := h2 hf; simp at this
  | dialFail f n l r =>
    simp only [countInside_decomp, insideCAS] at h1 h2 ⊢
    constructor
    · simpa using h1
    · intro hf; have := h2 hf; simp at this
  | addConn f n l r d =>
    simp only [countInside_decomp, insideCAS] at h1 h2 ⊢
    constructor
    · simpa using h1
    · intro hf; have := h2 hf; simp at this
  | reset f n l r d =>
    simp only [countInside_decomp, insideCAS] at h1 h2 ⊢
    simp at h1 ⊢
    omega

/-- Every state reachable from an all-idle initial state keeps at most
one invocation past the compare-and-swap, and none when the flag is
clear. -/
theorem DStep_reach_inv {cap : Int} {s0 s : DialSys}
    (h0flag : s0.flag = false) (h0start : ∀ pr ∈ s0.procs, pr.1 = DPC.start)
    (hreach : Relation.ReflTransGen (DStep cap) s0 s) :
    countInside s.procs ≤ 1 ∧ (s.flag = false → countInside s.procs = 0) := by
  have h00 : countInside s0.procs = 0 := by
    unfold countInside
    rw [List.countP_eq_zero]
    intro pr hpr
    rw [h0start pr hpr]
    simp [insideCAS]
  induction hreach with
  | refl => exact ⟨by omega, fun _ => h00⟩
  | tail hsteps hstep ih => exact DStep_preserves hstep ih.1 ih.2

/-! ### Cap-bound preservation and the decidable invariant bridge. -/

theorem poolInvD_poolInv {p : Pool} (h : poolInvD p) : poolInv p := by
  obtain ⟨h1, h2, h3, h4⟩ := h
  refine ⟨?_, h2, h3, h4⟩
  intro e he
  obtain ⟨eg, hegmem, hfst, hmem⟩ := h1 e he
  refine ⟨eg.2, ?_, hmem⟩
  rw [← hfst]
  exact mem_mlookup_of_nodup h4 hegmem

theorem BoundedP_setGroup {p : Pool} {addr : String} {g : Group} (hB : BoundedP p)
    (hg : (g.conns.length : Int) ≤ p.maxConnsPerHost) : BoundedP (setGroup p addr g) := by
  intro e he
  rcases mem_minsert_iff.mp he with rfl | ⟨hem, _⟩
  · exact hg
  · exact hB e hem

theorem BoundedP_markDead {p p1 : Pool} {conn : Conn} (hB : BoundedP p)
    (h : markDead p conn = some p1) : BoundedP p1 := by
  rcases markDead_some_inv h with ⟨_, rfl⟩ | ⟨addr, _, _, rfl⟩ |
    ⟨addr, g, g1, hk, hg, hr, hcase⟩
  · exact hB
  · exact fun e he => hB e he
  · rcases hcase with ⟨_, rfl⟩ | ⟨_, rfl⟩
    · intro e he
      exact hB e (mem_mdelete_iff.mp he).1
    · intro e he
      rcases mem_minsert_iff.mp he with rfl | ⟨hem, _⟩
      · have h1 : g1.conns.length ≤ g.conns.length := removeClientConn_length_le hr
        have h2 := hB (addr, g) (mlookup_some_mem hg)
        have h3 : (g1.conns.length : Int) ≤ (g.conns.length : Int) := by exact_mod_cast h1
        exact le_trans h3 h2
      · exact hB e hem

theorem BoundedP_bgDial {dial : Option Conn} {p : Pool} {addr : String} (hB : BoundedP p) :
    BoundedP (dialClientConnBG dial p addr) := by
  unfold dialClientConnBG
  cases hg : mlookup p.groups addr with
  | none => exact hB
  | some g =>
    simp only []
    by_cases hd : g.dialing
    · rw [if_pos hd]; exact hB
    · rw [if_neg hd]
      by_cases hc : (g.conns.length : Int) ≥ p.maxConnsPerHost
      · rw [if_pos hc]; exact hB
      · rw [if_neg hc]
        cases dial with
        | none => exact hB
        | some conn =>
          simp only []
          apply BoundedP_setGroup
          · exact hB
          · show (((g.conns ++ [conn]).length : Nat) : Int) ≤ p.maxConnsPerHost
            simp only [List.length_append, List.length_singleton]
            push_cast
            omega

theorem BoundedP_GetClientConn {canTake : Conn → Bool} {dial : Option Conn} {dka : Bool}
    {p : Pool} {addr : String} (hpos : 0 < p.maxConnsPerHost) (hB : BoundedP p) :
    BoundedP (GetClientConn canTake dial dka p addr).2 := by
  unfold GetClientConn
  by_cases hdka : dka
  · rw [if_pos hdka]
    cases dial with
    | none => exact hB
    | some c => exact hB
  · rw [if_neg hdka]
    cases hg : mlookup p.groups addr with
    | some g =>
      simp only []
      by_cases hlen : g.conns.length = 0
      · cases dial with
        | none =>
          rw [getClientConnG_empty_fail hlen]
          apply BoundedP_setGroup hB
          show ((g.conns.length : Nat) : Int) ≤ p.maxConnsPerHost
          rw [hlen]
          omega
        | some conn =>
          rw [getClientConnG_empty_dial hlen]
          apply BoundedP_setGroup
          · exact hB
          · show (((addConnG g conn).conns.length : Nat) : Int) ≤ p.maxConnsPerHost
            show (((g.conns ++ [conn]).length : Nat) : Int) ≤ p.maxConnsPerHost
            simp only [List.length_append, List.length_singleton, hlen]
            push_cast
            omega
      · obtain ⟨hp, hconns, _, _, _, _⟩ :=
          @getClientConnG_nonempty_frame canTake dial p g hlen
        rw [hp]
        apply BoundedP_setGroup hB
        rw [hconns]
        exact hB (addr, g) (mlookup_some_mem hg)
    | none =>
      simp only []
      cases dial with
      | none =>
        rw [getClientConnG_empty_fail (g := newGroup addr) rfl]
        apply BoundedP_setGroup
        · apply BoundedP_setGroup hB
          show (((newGroup addr).conns.length : Nat) : Int) ≤ p.maxConnsPerHost
          show ((0 : Nat) : Int) ≤ p.maxConnsPerHost
          omega
        · show (((newGroup addr).conns.length : Nat) : Int) ≤ p.maxConnsPerHost
          show ((0 : Nat) : Int) ≤ p.maxConnsPerHost
          omega
      | some conn =>
        rw [getClientConnG_empty_dial (g := newGroup addr) rfl]
        apply BoundedP_setGroup
        · apply BoundedP_setGroup hB
          show ((0 : Nat) : Int) ≤ p.maxConnsPerHost
          omega
        · show (((addConnG (newGroup addr) conn).conns.length : Nat) : Int) ≤ p.maxConnsPerHost
          show ((1 : Nat) : Int) ≤ p.maxConnsPerHost
          omega

theorem groupInv_newGroup (addr : String) : groupInv (newGroup addr) := by
  refine ⟨List.nodup_nil, List.nodup_nil, ?_⟩
  intro i hi
  simp [newGroup] at hi

/-! ### The claims. -/

/-- C1: with a positive per-host cap configured, every registered group
holds at most `maxConnsPerHost` connections, and this bound is
preserved by the request path `GetClientConn` (including its
synchronous dial), by the background dial `dialClientConnBG`, and by
`markDead`. -/
theorem c1_cap_invariant (p : Pool) (canTake : Conn → Bool) (dial : Option Conn)
    (dka : Bool) (addr : String) (conn : Conn)
    (hpos : 0 < p.maxConnsPerHost) (hB : BoundedP p) :
    BoundedP (GetClientConn canTake dial dka p addr).2 ∧
    BoundedP (dialClientConnBG dial p addr) ∧
    ∀ p1, markDead p conn = some p1 → BoundedP p1 :=
  ⟨BoundedP_GetClientConn hpos hB, BoundedP_bgDial hB, fun _ h => BoundedP_markDead hB h⟩

theorem c1_cap_invariant_witness :
    ((0 : Int) < samplePool.maxConnsPerHost ∧ BoundedP samplePool) ∧
    (BoundedP (GetClientConn (fun _ => true) (some 7) false samplePool "a").2 ∧
      BoundedP (dialClientConnBG (some 7) samplePool "a") ∧
      ∀ p1, markDead samplePool 5 = some p1 → BoundedP p1) :=
  ⟨⟨by decide, by decide⟩,
    c1_cap_invariant samplePool (fun _ => true) (some 7) false "a" 5 (by decide) (by decide)⟩

/-- C2: the background dial's capacity re-check
`len(g.conns) >= g.p.maxConnsPerHost` aborts the dial for every group
whenever the configured cap is non-positive, because `len >= 0 >= cap`
always holds; so with `maxConnsPerHost <= 0` and a live connection the
triggered background dial never grows the pool, contradicting the
intended "no positive cap means grow" behaviour of the trigger
condition. -/
theorem c2_bgdial_cap_nonpositive_aborts (dial : Option Conn) (p : Pool) (addr : String)
    (g : Group) (hcap : p.maxConnsPerHost ≤ 0) (hg : mlookup p.groups addr = some g) :
    dialClientConnBG dial p addr = p := by
  unfold dialClientConnBG
  rw [hg]
  simp only []
  by_cases hd : g.dialing
  · rw [if_pos hd]
  · rw [if_neg hd, if_pos (show (g.conns.length : Int) ≥ p.maxConnsPerHost by omega)]

theorem c2_bgdial_cap_nonpositive_aborts_witness :
    (samplePoolNoCap.maxConnsPerHost ≤ 0 ∧
      mlookup samplePoolNoCap.groups "a" = some sampleGroup) ∧
    dialClientConnBG (some 7) samplePoolNoCap "a" = samplePoolNoCap :=
  ⟨⟨by decide, by decide⟩,
    c2_bgdial_cap_nonpositive_aborts (some 7) samplePoolNoCap "a" sampleGroup
      (by decide) (by decide)⟩

/-- C4: `markDead` is idempotent: once a call has completed for a
connection, a second call with the same connection returns the very
same pool state (a silent no-op, with no panic). -/
theorem c4_markDead_idempotent (p p1 : Pool) (conn : Conn)
    (h : markDead p conn = some p1) : markDead p1 conn = some p1 :=
  markDead_no_entry (markDead_keys_gone h)

theorem c4_markDead_idempotent_witness :
    markDead samplePool 5 = some ⟨[], [], 1⟩ ∧
    markDead ⟨[], [], 1⟩ 5 = some ⟨[], [], 1⟩ :=
  ⟨by decide, c4_markDead_idempotent samplePool ⟨[], [], 1⟩ 5 (by decide)⟩

/-- C6: under the pool invariant, the bidirectional correspondence
between the ownership map and the groups' connection lists holds again
after `markDead` and after registering a freshly dialed connection
(`addClientConn` on a registered group, written back). -/
theorem c6_owner_correspondence (p : Pool) (conn c2 : Conn) (addr : String) (g : Group)
    (hInv : poolInv p) :
    (∀ p1, markDead p conn = some p1 → corr p1) ∧
    (mlookup p.groups addr = some g → mlookup p.keys c2 = none →
      corr (setGroup (addClientConn p g c2).1 addr (addClientConn p g c2).2)) :=
  ⟨fun _ h => poolInv_corr (poolInv_markDead hInv h),
   fun hg hfresh => poolInv_corr (poolInv_addConn hInv hg hfresh)⟩

theorem c6_owner_correspondence_witness :
    poolInvD samplePool ∧
    ((∀ p1, markDead samplePool 5 = some p1 → corr p1) ∧
      (mlookup samplePool.groups "a" = some sampleGroup →
        mlookup samplePool.keys 7 = none →
        corr (setGroup (addClientConn samplePool sampleGroup 7).1 "a"
          (addClientConn samplePool sampleGroup 7).2))) :=
  ⟨by decide,
    c6_owner_correspondence samplePool 5 7 "a" sampleGroup (poolInvD_poolInv (by decide))⟩

/-- C7: on a group with at least one live connection, `getClientConn`
fails exactly when no connection can take a new request; the failure is
the `noAvailableConn` error naming the destination, no synchronous dial
is attempted, the pool is untouched and the connection list is
unchanged. -/
theorem c7_exhaustion (canTake : Conn → Bool) (dial : Option Conn) (p : Pool) (g : Group)
    (hN : 0 < g.conns.length) :
    ((∃ e, (getClientConnG canTake dial p g).res = Except.error e) ↔
      ∀ c ∈ g.conns, canTake c = false) ∧
    ((∀ c ∈ g.conns, canTake c = false) →
      (getClientConnG canTake dial p g).res =
        Except.error (PoolError.noAvailableConn g.addr)) ∧
    (getClientConnG canTake dial p g).syncDialed = false ∧
    (getClientConnG canTake dial p g).g.conns = g.conns ∧
    (getClientConnG canTake dial p g).p = p := by
  have hlen : ¬ g.conns.length = 0 := by omega
  obtain ⟨o, idx, hsel⟩ :
      ∃ o idx, selectLoop canTake g.conns g.connIdx g.conns.length = (o, idx) := ⟨_, _, rfl⟩
  cases o with
  | some conn =>
    rw [getClientConnG_sel_some hlen hsel]
    refine ⟨?_, ?_, rfl, rfl, rfl⟩
    · constructor
      · rintro ⟨e, he⟩; cases he
      · intro hall
        have hnone : (selectLoop canTake g.conns g.connIdx g.conns.length).1 = none :=
          (selectLoop_none_full hN g.connIdx).mpr hall
        rw [hsel] at hnone
        cases hnone
    · intro hall
      exfalso
      have hnone := (selectLoop_none_full hN g.connIdx).mpr hall
      rw [hsel] at hnone
      cases hnone
  | none =>
    rw [getClientConnG_sel_none hlen hsel]
    refine ⟨?_, fun _ => rfl, rfl, rfl, rfl⟩
    constructor
    · intro _
      exact (selectLoop_none_full hN g.connIdx).mp (by rw [hsel])
    · intro _
      exact ⟨_, rfl⟩

theorem c7_exhaustion_witness :
    0 < sampleGroup2.conns.length ∧
    (((∃ e, (getClientConnG (fun _ => false) none samplePool2 sampleGroup2).res =
        Except.error e) ↔ ∀ c ∈ sampleGroup2.conns, (fun _ => false) c = false) ∧
      ((∀ c ∈ sampleGroup2.conns, (fun _ => false) c = false) →
        (getClientConnG (fun _ => false) none samplePool2 sampleGroup2).res =
          Except.error (PoolError.noAvailableConn sampleGroup2.addr)) ∧
      (getClientConnG (fun _ => false) none samplePool2 sampleGroup2).syncDialed = false ∧
      (getClientConnG (fun _ => false) none samplePool2 sampleGroup2).g.conns =
        sampleGroup2.conns ∧
      (getClientConnG (fun _ => false) none samplePool2 sampleGroup2).p = samplePool2) :=
  ⟨by decide, c7_exhaustion (fun _ => false) none samplePool2 sampleGroup2 (by decide)⟩

/-- C8: the factory returns the ALPN negotiation error exactly when no
custom dial function is configured, host parsing succeeded, and the
internal TLS dial negotiated a protocol other than `NextProtoTLS`; the
error carries the negotiated protocol, and the custom-dial path can
never produce it. -/
theorem c8_alpn_error_iff (env : FactoryEnv) (s : String) :
    dialClientConnF env = Except.error (DialErr.alpn s) ↔
      (env.splitOk = true ∧ env.hasDialTLS = false ∧
        (∃ raw, env.tlsResult = some (raw, s)) ∧ s ≠ NextProtoTLS) := by
  unfold dialClientConnF
  by_cases hsp : env.splitOk = false
  · rw [if_pos hsp]
    refine iff_of_false (by intro h; cases h) ?_
    rintro ⟨h1, -, -, -⟩
    rw [h1] at hsp
    cases hsp
  · rw [if_neg hsp]
    have hsp1 : env.splitOk = true := by
      revert hsp
      cases env.splitOk <;> simp
    by_cases hd : env.hasDialTLS
    · rw [if_pos hd]
      refine iff_of_false ?_ ?_
      · cases hcr : env.customResult with
        | none => intro h; cases h
        | some raw =>
          simp only []
          cases he : env.engine raw with
          | none => intro h; cases h
          | some c => intro h; cases h
      · rintro ⟨-, h2, -, -⟩
        rw [hd] at h2
        cases h2
    · rw [if_neg hd]
      have hd0 : env.hasDialTLS = false := by
        revert hd
        cases env.hasDialTLS <;> simp
      cases ht : env.tlsResult with
      | none =>
        refine iff_of_false (by intro h; cases h) ?_
        rintro ⟨-, -, ⟨raw, hraw⟩, -⟩
        cases hraw
      | some pr =>
        obtain ⟨raw, proto⟩ := pr
        simp only []
        by_cases hp : proto = NextProtoTLS
        · rw [if_pos hp]
          refine iff_of_false ?_ ?_
          · cases he : env.engine raw with
            | none => intro h; cases h
            | some c => intro h; cases h
          · rintro ⟨-, -, ⟨raw2, hraw2⟩, hne⟩
            cases hraw2
            exact hne hp
        · rw [if_neg hp]
          constructor
          · intro h
            have hps : proto = s := by
              cases h
              rfl
            exact ⟨hsp1, hd0, ⟨raw, by rw [hps]⟩, by rw [← hps]; exact hp⟩
          · rintro ⟨-, -, ⟨raw2, hraw2⟩, -⟩
            cases hraw2
            rfl

/-- C9: in the interleaved model of the background dial, every state
reachable from an all-idle initial state has at most one invocation
past the compare-and-swap on the `dialing` flag and not yet reset it;
and an invocation that loses the compare-and-swap steps directly to
`lost`, leaving the flag, the connection count and every other
invocation untouched. -/
theorem c9_single_flight (cap : Int) (s0 s : DialSys)
    (h0flag : s0.flag = false) (h0start : ∀ pr ∈ s0.procs, pr.1 = DPC.start)
    (hreach : Relation.ReflTransGen (DStep cap) s0 s) :
    countInside s.procs ≤ 1 ∧
    ∀ (n : Nat) (l r : List DProc) (d : Bool),
      DStep cap ⟨true, n, l ++ (DPC.start, d) :: r⟩ ⟨true, n, l ++ (DPC.lost, d) :: r⟩ :=
  ⟨(DStep_reach_inv h0flag h0start hreach).1, fun n l r d => DStep.casLose n l r d⟩

theorem c9_single_flight_witness :
    ((⟨false, 1, [(DPC.start, true), (DPC.start, false)]⟩ : DialSys).flag = false ∧
      (∀ pr ∈ (⟨false, 1, [(DPC.start, true), (DPC.start, false)]⟩ : DialSys).procs,
        pr.1 = DPC.start)) ∧
    (countInside (⟨false, 1, [(DPC.start, true), (DPC.start, false)]⟩ : DialSys).procs ≤ 1 ∧
      ∀ (n : Nat) (l r : List DProc) (d : Bool),
        DStep 2 ⟨true, n, l ++ (DPC.start, d) :: r⟩ ⟨true, n, l ++ (DPC.lost, d) :: r⟩) :=
  ⟨⟨rfl, by decide⟩,
    c9_single_flight 2 ⟨false, 1, [(DPC.start, true), (DPC.start, false)]⟩
      ⟨false, 1, [(DPC.start, true), (DPC.start, false)]⟩ rfl (by decide)
      Relation.ReflTransGen.refl⟩

/-- C3: with `N` live connections all able to take requests, `M ≥ N`
sequential `getClientConn` calls each return a connection, and every
connection is returned between `⌊M/N⌋` and `⌈M/N⌉` times — so each is
served at least `⌊M/N⌋` times and none ever reaches `⌈M/N⌉ + 1`. -/
theorem c3_round_robin (canTake : Conn → Bool) (dial : Option Conn) (p : Pool) (g : Group)
    (M : Nat) (hall : ∀ c ∈ g.conns, canTake c = true) (hnd : g.conns.Nodup)
    (hN : 0 < g.conns.length) (hMN : g.conns.length ≤ M) :
    ((iterCalls canTake dial p g M).2.2).length = M ∧
    (∀ r ∈ (iterCalls canTake dial p g M).2.2, ∃ c ∈ g.conns, r = Except.ok c) ∧
    ∀ c ∈ g.conns,
      M / g.conns.length ≤ ((iterCalls canTake dial p g M).2.2).count (Except.ok c) ∧
      ((iterCalls canTake dial p g M).2.2).count (Except.ok c) ≤
        (M + g.conns.length - 1) / g.conns.length := by
  have hclosed := @iterCalls_all_take canTake dial p M g hall hN
  rw [hclosed]
  simp only []
  refine ⟨by simp, ?_, ?_⟩
  · intro r hr
    obtain ⟨t, htmem, hteq⟩ := List.mem_map.mp hr
    exact ⟨g.conns.getD ((g.connIdx + 1 + t) % g.conns.length) 0,
      List.mem_iff_getElem?.mpr ⟨_, getD_getElem? (Nat.mod_lt _ hN)⟩, hteq.symm⟩
  · intro c hc
    obtain ⟨j, hj⟩ := List.mem_iff_getElem?.mp hc
    have hjlt : j < g.conns.length := by
      by_contra hge
      rw [List.getElem?_eq_none (by omega)] at hj
      cases hj
    have hcount : ((List.range M).map (fun t =>
          Except.ok (g.conns.getD ((g.connIdx + 1 + t) % g.conns.length) 0) :
            Nat → Except PoolError Conn)).count (Except.ok c) =
        (List.range M).countP (fun t => (g.connIdx + 1 + t) % g.conns.length = j) := by
      show List.countP (· == Except.ok c) _ = _
      rw [List.countP_map]
      apply List.countP_congr
      intro t htmem
      simp only [Function.comp, beq_iff_eq, Except.ok.injEq, decide_eq_true_eq]
      constructor
      · intro hh
        apply nodup_getElem?_inj hnd (Nat.mod_lt _ hN) hjlt
        rw [getD_getElem? (Nat.mod_lt _ hN), hh, hj]
      · intro hh
        rw [hh]
        have hgd := getD_getElem? hjlt
        rw [hj] at hgd
        exact (Option.some.inj hgd).symm
    rw [hcount]
    exact countP_range_mod_bounds g.conns.length (g.connIdx + 1) j M hN hjlt

theorem c3_round_robin_witness :
    ((∀ c ∈ sampleGroup2.conns, (fun _ => true) c = true) ∧ sampleGroup2.conns.Nodup ∧
      0 < sampleGroup2.conns.length ∧ sampleGroup2.conns.length ≤ 5) ∧
    (((iterCalls (fun _ => true) none samplePool2 sampleGroup2 5).2.2).length = 5 ∧
      (∀ r ∈ (iterCalls (fun _ => true) none samplePool2 sampleGroup2 5).2.2,
        ∃ c ∈ sampleGroup2.conns, r = Except.ok c) ∧
      ∀ c ∈ sampleGroup2.conns,
        5 / sampleGroup2.conns.length ≤
          ((iterCalls (fun _ => true) none samplePool2 sampleGroup2 5).2.2).count
            (Except.ok c) ∧
        ((iterCalls (fun _ => true) none samplePool2 sampleGroup2 5).2.2).count
            (Except.ok c) ≤
          (5 + sampleGroup2.conns.length - 1) / sampleGroup2.conns.length) :=
  ⟨⟨by decide, by decide, by decide, by decide⟩,
    c3_round_robin (fun _ => true) none samplePool2 sampleGroup2 5
      (by decide) (by decide) (by decide) (by decide)⟩

/-- C5: when `markDead` retires the last connection of a group, the
group is deleted from the registry; the next `GetClientConn` for the
same destination (keep-alives enabled) finds no group, creates a fresh
one, serves the request through the synchronous dial, and registers
exactly the one dialed connection. -/
theorem c5_group_recreated (p : Pool) (addr : String) (g : Group) (c c2 : Conn)
    (canTake : Conn → Bool)
    (hk : mlookup p.keys c = some addr) (hg : mlookup p.groups addr = some g)
    (hconns : g.conns = [c]) (hgk : mlookup g.keys c = some 0) :
    ∃ p1, markDead p c = some p1 ∧ mlookup p1.groups addr = none ∧
      (GetClientConn canTake (some c2) false p1 addr).1 = Except.ok c2 ∧
      (∃ g2, mlookup (GetClientConn canTake (some c2) false p1 addr).2.groups addr = some g2 ∧
        g2.conns = [c2]) ∧
      mlookup (GetClientConn canTake (some c2) false p1 addr).2.keys c2 = some addr := by
  have hlen : g.conns.length = 1 := by rw [hconns]; rfl
  have hrem : removeClientConn g c = some { g with conns := g.conns.dropLast } := by
    unfold removeClientConn
    rw [hgk]
    simp only []
    rw [if_pos (by rw [hlen]; decide)]
  have hlen1 : ({ g with conns := g.conns.dropLast }).conns.length = 0 := by
    show g.conns.dropLast.length = 0
    rw [hconns]
    rfl
  have hmark : markDead p c =
      some { p with keys := mdelete p.keys c, groups := mdelete p.groups addr } := by
    unfold markDead
    rw [hk]
    simp only []
    rw [hg]
    simp only []
    rw [hrem]
    simp only []
    rw [if_pos hlen1]
  have hgone : mlookup (mdelete p.groups addr) addr = none := mlookup_mdelete_self p.groups addr
  have hGet : GetClientConn canTake (some c2) false
        { p with keys := mdelete p.keys c, groups := mdelete p.groups addr } addr =
      (Except.ok c2,
        ⟨minsert (minsert (mdelete p.groups addr) addr (newGroup addr)) addr
            (addConnG (newGroup addr) c2),
          minsert (mdelete p.keys c) c2 (newGroup addr).addr,
          p.maxConnsPerHost⟩) := by
    unfold GetClientConn
    rw [if_neg (show ¬ (false : Bool) = true by decide)]
    simp only []
    rw [hgone]
    simp only []
    rw [getClientConnG_empty_dial (g := newGroup addr) rfl]
    rfl
  refine ⟨{ p with keys := mdelete p.keys c, groups := mdelete p.groups addr },
    hmark, hgone, ?_, ?_, ?_⟩
  · rw [hGet]
  · refine ⟨addConnG (newGroup addr) c2, ?_, rfl⟩
    rw [hGet]
    exact mlookup_minsert_self _ _ _
  · rw [hGet]
    show mlookup (minsert _ c2 (newGroup addr).addr) c2 = some addr
    rw [mlookup_minsert_self]
    rfl

theorem c5_group_recreated_witness :
    (mlookup samplePool.keys 5 = some "a" ∧
      mlookup samplePool.groups "a" = some sampleGroup ∧
      sampleGroup.conns = [5] ∧ mlookup sampleGroup.keys 5 = some 0) ∧
    ∃ p1, markDead samplePool 5 = some p1 ∧ mlookup p1.groups "a" = none ∧
      (GetClientConn (fun _ => true) (some 7) false p1 "a").1 = Except.ok 7 ∧
      (∃ g2, mlookup (GetClientConn (fun _ => true) (some 7) false p1 "a").2.groups "a" =
          some g2 ∧ g2.conns = [7]) ∧
      mlookup (GetClientConn (fun _ => true) (some 7) false p1 "a").2.keys 7 = some "a" :=
  ⟨⟨by decide, by decide, by decide, by decide⟩,
    c5_group_recreated samplePool "a" sampleGroup 5 7 (fun _ => true)
      (by decide) (by decide) (by decide) (by decide)⟩

theorem groupInv_applyOps : ∀ (ops : List GOp) (g g1 : Group), groupInv g →
    ValidOps g ops → applyOps g ops = some g1 → groupInv g1 := by
  intro ops
  induction ops with
  | nil =>
    intro g g1 hI hv happ
    cases happ
    exact hI
  | cons op ops ih =>
    intro g g1 hI hv happ
    cases op with
    | add c =>
      cases hv with
      | add _ _ _ hc hrest =>
        exact ih _ _ (groupInv_addConnG hI hc) hrest happ
    | remove c =>
      cases hv with
      | remove _ _ gr _ hr hrest =>
        have happ2 : applyOps gr ops = some g1 := by
          unfold applyOps at happ
          rw [hr] at happ
          simp only [] at happ
          exact happ
        exact ih _ _ (groupInv_remove hI hr).1 hrest happ2

/-- C10 counterexample: from an empty group, adding connections 0 and 1
and then removing 1 (the last element) leaves the index-map entry
`1 ↦ 1` in place although connection 1 is gone from `conns`; so the
index map does not contain an entry exactly for the current
connections, and the last-element branch of `removeClientConn` does not
delete the retired connection's entry. -/
theorem c10_counterexample :
    applyOps (newGroup "a") [GOp.add 0, GOp.add 1, GOp.remove 1] =
      some ⟨"a", 0, [0], [(1, 1), (0, 0)], false⟩ ∧
    mlookup [((1 : Conn), (1 : Nat)), (0, 0)] 1 = some 1 ∧
    (1 : Conn) ∉ [(0 : Conn)] := by
  decide

/-- C10 (amended): for operation sequences from an empty group in which
every added connection is fresh and no removal panics, the group stays
well formed: `conns` is duplicate-free and every live connection's
index-map entry equals its current position.  `removeClientConn`
deletes the retired connection's entry exactly in the swap-with-last
branch; in the last-element branch the index map is left untouched, so
stale entries for retired connections can remain. -/
theorem c10_index_map_amended (addr : String) (ops : List GOp) (g1 : Group)
    (hv : ValidOps (newGroup addr) ops)
    (happ : applyOps (newGroup addr) ops = some g1) :
    (g1.conns.Nodup ∧
      ∀ i < g1.conns.length, mlookup g1.keys (g1.conns.getD i 0) = some i) ∧
    (∀ (g : Group) (c : Conn) (idx : Nat) (gr : Group),
      mlookup g.keys c = some idx → removeClientConn g c = some gr →
      (((idx : Int) ≠ (g.conns.length : Int) - 1) → mlookup gr.keys c = none) ∧
      (((idx : Int) = (g.conns.length : Int) - 1) → gr.keys = g.keys)) := by
  constructor
  · have hI := groupInv_applyOps ops (newGroup addr) g1 (groupInv_newGroup addr) hv happ
    exact ⟨hI.1, hI.2.2⟩
  · intro g c idx gr hkey hrem
    constructor
    · intro hne
      rcases removeClientConn_some_inv hrem with ⟨hk0, rfl⟩ | ⟨idx2, hk2, hpos, hidx2, rfl⟩ |
        ⟨idx2, hk2, hidx2, rfl⟩
      · rw [hkey] at hk0; cases hk0
      · exfalso
        rw [hkey] at hk2
        have h12 : idx = idx2 := Option.some.inj hk2
        apply hne
        omega
      · show mlookup (mdelete (minsert g.keys _ idx2) c) c = none
        exact mlookup_mdelete_self _ _
    · intro heq
      rcases removeClientConn_some_inv hrem with ⟨hk0, hgr⟩ | ⟨idx2, hk2, hpos, hidx2, hgr⟩ |
        ⟨idx2, hk2, hidx2, hgr⟩
      · rw [hkey] at hk0; cases hk0
      · rw [hgr]
      · exfalso
        rw [hkey] at hk2
        have h12 : idx = idx2 := Option.some.inj hk2
        omega

theorem c10_index_map_amended_witness :
    (ValidOps (newGroup "x") [GOp.add 3, GOp.add 4, GOp.remove 3] ∧
      applyOps (newGroup "x") [GOp.add 3, GOp.add 4, GOp.remove 3] =
        some ⟨"x", 0, [4], [(4, 0)], false⟩) ∧
    (((⟨"x", 0, [4], [(4, 0)], false⟩ : Group).conns.Nodup ∧
      ∀ i < (⟨"x", 0, [4], [(4, 0)], false⟩ : Group).conns.length,
        mlookup (⟨"x", 0, [4], [(4, 0)], false⟩ : Group).keys
          ((⟨"x", 0, [4], [(4, 0)], false⟩ : Group).conns.getD i 0) = some i) ∧
    (∀ (g : Group) (c : Conn) (idx : Nat) (gr : Group),
      mlookup g.keys c = some idx → removeClientConn g c = some gr →
      (((idx : Int) ≠ (g.conns.length : Int) - 1) → mlookup gr.keys c = none) ∧
      (((idx : Int) = (g.conns.length : Int) - 1) → gr.keys = g.keys))) :=
  ⟨⟨ValidOps.add _ 3 _ (by decide)
      (ValidOps.add _ 4 _ (by decide)
        (ValidOps.remove _ 3 ⟨"x", 0, [4], [(4, 0)], false⟩ _ (by decide) (ValidOps.nil _))),
    by decide⟩,
    c10_index_map_amended "x" [GOp.add 3, GOp.add 4, GOp.remove 3]
      ⟨"x", 0, [4], [(4, 0)], false⟩
      (ValidOps.add _ 3 _ (by decide)
        (ValidOps.add _ 4 _ (by decide)
          (ValidOps.remove _ 3 ⟨"x", 0, [4], [(4, 0)], false⟩ _ (by decide)
            (ValidOps.nil _))))
      (by decide)⟩

end Http2Pool
